import Mathlib

/-!
Verification of the bo3-client core: the instance tree
(`engine/shared/instances/instance.go`, `instanceman.go`) and the network
manager framing layer (`engine/shared/network/manager.go`).

The Go heap is modelled as a store mapping numeric object ids to node
records.  A Go `Instance` interface value is modelled by `InstRef`: the
id of the underlying object together with a flag `asBase` recording
whether the dynamic type of the interface value is `*BaseInstance`
(`asBase = true`) or a concrete subclass such as `*Part` / `*Werkzeug`
(`asBase = false`).  This flag matters because `SetParent` and
`instanceManager.Create` perform the type assertion
`parent.(*BaseInstance)` / `inst.(*BaseInstance)`, which succeeds exactly
when the dynamic type is `*BaseInstance`; for a `*Part` value it fails
even though `Part` embeds `BaseInstance`.  Children lists always store
the `*BaseInstance` view, because `addChild` is called with the receiver
`b *BaseInstance` itself.

Recursive tree operations (`Destroy`, `GetDescendants`, `Clone`) are
modelled with an explicit fuel argument; theorems assume enough fuel via
a rank function witnessing acyclicity of the child graph, which is the
implicit precondition of the recursive Go code.
-/

namespace BO3

/-- A Go `Instance` interface value: object id plus whether the dynamic
type is `*BaseInstance` (`true`) or a concrete subclass (`false`). -/
structure InstRef where
  id : Nat
  asBase : Bool
  deriving DecidableEq, Repr

/-- The concrete Go type of a node object: `BaseInstance`, `Part`, or
`Werkzeug`. -/
inductive NodeKind where
  | base
  | part
  | werkzeug
  deriving DecidableEq, Repr

/-- The state of one `BaseInstance` (possibly embedded in a `Part` or
`Werkzeug`): `name`, `className`, the `parent` back-reference (the exact
interface value that was stored), and the `children` slice, where `none`
models a nil Go slice and `some l` a non-nil slice. -/
structure Node where
  kind : NodeKind
  name : String
  className : String
  parent : Option InstRef
  children : Option (List InstRef)
  deriving DecidableEq, Repr

/-- The heap: association list from object id to node state, plus the
next fresh id used by allocation. -/
structure Store where
  entries : List (Nat × Node)
  nextId : Nat
  deriving DecidableEq, Repr

def lookupN (s : Store) (i : Nat) : Option Node :=
  List.lookup i s.entries

/-- Update the node with id `i` in place (no-op when `i` is absent). -/
def updateN (s : Store) (i : Nat) (f : Node → Node) : Store :=
  ⟨s.entries.map (fun e => if e.1 = i then (e.1, f e.2) else e), s.nextId⟩

/-- The `*BaseInstance` view of the object `i` (what `addChild` stores). -/
def baseRef (i : Nat) : InstRef := ⟨i, true⟩

/-- The current children slice of node `i` (empty when the slice is nil
or the node is absent). -/
def childrenList (s : Store) (i : Nat) : List InstRef :=
  match lookupN s i with
  | some n => n.children.getD []
  | none => []

def nameOf (s : Store) (i : Nat) : String :=
  match lookupN s i with
  | some n => n.name
  | none => ""

def classOf (s : Store) (i : Nat) : String :=
  match lookupN s i with
  | some n => n.className
  | none => ""

def parentOf (s : Store) (i : Nat) : Option InstRef :=
  (lookupN s i).bind Node.parent

/-- `BaseInstance.GetChildren`: returns a copy of the children slice. -/
def getChildren (s : Store) (i : Nat) : List InstRef :=
  childrenList s i

/-- `BaseInstance.FindFirstChild`: first child whose `GetName()` equals
`nm`. -/
def findFirstChild (s : Store) (i : Nat) (nm : String) : Option InstRef :=
  (childrenList s i).find? (fun c => nameOf s c.id == nm)

/-- `BaseInstance.addChild`: append to the children slice (a Go `append`
on a nil slice allocates, so a nil slice becomes `[c]`). -/
def addChild (s : Store) (p : Nat) (c : InstRef) : Store :=
  updateN s p (fun n => { n with children := some (n.children.getD [] ++ [c]) })

/-- Remove the first occurrence of `c` (mirrors the indexed loop with
`break` in `BaseInstance.removeChild`). -/
def removeFirst : List InstRef → InstRef → List InstRef
  | [], _ => []
  | x :: xs, c => if x = c then xs else x :: removeFirst xs c

/-- `BaseInstance.removeChild`: remove the first occurrence of `c` from
the children slice; a nil slice stays nil (the loop body never runs). -/
def removeChild (s : Store) (p : Nat) (c : InstRef) : Store :=
  updateN s p (fun n => { n with children := n.children.map (fun l => removeFirst l c) })

/-- `BaseInstance.SetParent`.  Removal from the old parent happens only
when the stored parent interface value has dynamic type `*BaseInstance`
(the `b.parent.(*BaseInstance)` assertion); the documented best-effort
else-branch builds a filtered slice but never installs it (its inner
re-assertion can never succeed), so it is a no-op.  Likewise the new
child is appended only when the new parent value is a `*BaseInstance`;
for a concrete subclass value the method "stops here" and the child is
not added. -/
def setParentGo (s : Store) (b : Nat) (newParent : Option InstRef) : Store :=
  match lookupN s b with
  | none => s
  | some nb =>
    let s1 := match nb.parent with
      | some p => if p.asBase then removeChild s p.id (baseRef b) else s
      | none => s
    let s2 := updateN s1 b (fun n => { n with parent := newParent })
    match newParent with
    | some q => if q.asBase then addChild s2 q.id (baseRef b) else s2
    | none => s2

/-- `Destroy`'s removal-from-parent phase: when the stored parent value
is non-nil and is a `*BaseInstance`, remove self from its children. -/
def destroyDetach (s : Store) (b : Nat) : Store :=
  match parentOf s b with
  | some p => if p.asBase then removeChild s p.id (baseRef b) else s
  | none => s

/-- `Destroy`'s clearing phase: set own parent to nil and the children
slice to nil. -/
def destroyClear (s : Store) (b : Nat) : Store :=
  updateN s b (fun n => { n with parent := none, children := none })

/-- `BaseInstance.Destroy` with explicit fuel: copy the children, destroy
each recursively, then remove self from the parent (only when the stored
parent value is a `*BaseInstance`), then clear own parent and children
(children becomes a nil slice). -/
def destroyFuel : Nat → Store → Nat → Store
  | 0, s, _ => s
  | fuel + 1, s, b =>
    match lookupN s b with
    | none => s
    | some nb =>
      let kids := nb.children.getD []
      let s1 := kids.foldl (fun acc c => destroyFuel fuel acc c.id) s
      destroyClear (destroyDetach s1 b) b

/-- `BaseInstance.GetDescendants` with explicit fuel: for each child in
order, list the child and then its descendants (pre-order without the
root, exactly the append pattern of the Go loop). -/
def getDescFuel : Nat → Store → Nat → List InstRef
  | 0, _, _ => []
  | fuel + 1, s, b =>
    (childrenList s b).foldl (fun acc c => acc ++ c :: getDescFuel fuel s c.id) []

/-- Ids listed by `GetDescendants`. -/
def descIds (fuel : Nat) (s : Store) (b : Nat) : List Nat :=
  (getDescFuel fuel s b).map InstRef.id

/-! ## Registry and factory (`instanceman.go`) -/

/-- What a registered constructor builds.  Every constructor in the
repository (`NewBaseInstance`, `NewPart`, `NewWerkzeug` and the
registered closures in `datamodel.go` / `instanceman.go`) allocates one
fresh node and returns it; `retBase` records whether the returned
interface value has dynamic type `*BaseInstance`, and `childrenNil`
whether the constructor left the children slice nil. -/
structure CtorSpec where
  kind : NodeKind
  retBase : Bool
  name : String
  className : String
  childrenNil : Bool
  deriving DecidableEq, Repr

/-- A stored `InstanceConstructor`; `none` models a constructor that
returns a nil `Instance` (signalling failure). -/
abbrev Ctor := Option CtorSpec

/-- The `map[string]InstanceConstructor` registry. -/
abbrev Registry := List (String × Ctor)

def regLookup (reg : Registry) (nm : String) : Option Ctor :=
  List.lookup nm reg

/-- Go map assignment `m[k] = v`: overwrite if present, insert
otherwise. -/
def regInsert (reg : Registry) (nm : String) (c : Ctor) : Registry :=
  if (List.lookup nm reg).isSome then
    reg.map (fun e => if e.1 = nm then (nm, c) else e)
  else
    reg ++ [(nm, c)]

def emptyStr : String := ""

/-- `instanceManager.RegisterClass`.  The second component is `true`
exactly when the method returned the error
`invalid className or constructor`; the registry value passed in is the
manager's map, returned unchanged in the error case.  A nil constructor
argument is `none`. -/
def registerClass (reg : Registry) (nm : String) (ctor : Option Ctor) :
    Registry × Bool :=
  match ctor with
  | none => (reg, true)
  | some c => if nm = emptyStr then (reg, true) else (regInsert reg nm c, false)

/-- Run a constructor: allocate a fresh node and return the interface
value the constructor returns. -/
def runCtor (s : Store) (c : CtorSpec) : InstRef × Store :=
  (⟨s.nextId, c.retBase⟩,
   ⟨s.entries ++ [(s.nextId,
      ⟨c.kind, c.name, c.className, none,
       if c.childrenNil then none else some []⟩)],
    s.nextId + 1⟩)

/-- `instanceManager.Create`: look up the constructor (absent class or a
constructor returning nil yields no node), run it, and — only when the
returned interface value passes the `inst.(*BaseInstance)` assertion —
backfill a nil children slice with an empty one and an empty `className`
with the registered name. -/
def create (reg : Registry) (s : Store) (cls : String) :
    Option InstRef × Store :=
  match regLookup reg cls with
  | none => (none, s)
  | some none => (none, s)
  | some (some spec) =>
    let rs := runCtor s spec
    let r := rs.1
    let s1 := rs.2
    let s2 :=
      if r.asBase then
        updateN s1 r.id (fun n =>
          let n1 := if n.children.isNone then { n with children := some [] } else n
          if n1.className = emptyStr then { n1 with className := cls } else n1)
      else s1
    (some r, s2)

/-- `BaseInstance.SetName`. -/
def setNameGo (s : Store) (i : Nat) (nm : String) : Store :=
  updateN s i (fun n => { n with name := nm })

/-- `instanceManager.CreateNamed`: `Create` plus `SetName`. -/
def createNamed (reg : Registry) (s : Store) (cls nm : String) :
    Option InstRef × Store :=
  match create reg s cls with
  | (none, s1) => (none, s1)
  | (some r, s1) => (some r, setNameGo s1 r.id nm)

def clsInstance : String := "Instance"

/-- The registry of the package-level `DefaultInstanceManager` used by
`BaseInstance.Clone`: `NewInstanceManager` registers exactly the class
`"Instance"`, whose constructor builds a `BaseInstance` named
`"Instance"` with a non-nil empty children slice.  (`datamodel.go`
registers further classes only on its own separate manager.) -/
def defaultRegistry : Registry :=
  [(clsInstance, some ⟨NodeKind.base, true, clsInstance, clsInstance, false⟩)]

/-- `BaseInstance.Clone` with explicit fuel.  `DefaultInstanceManager`
is non-nil (set in `init()`), so `Clone` asks it to `Create` the source
class name (which succeeds only for `"Instance"`); on failure it falls
back to `NewBaseInstance(b.className)`.  Either way the copy is named
after the source, and the children are cloned in order and reattached
with `SetParent`. -/
def cloneFuel : Nat → Store → Nat → Option InstRef × Store
  | 0, s, _ => (none, s)
  | fuel + 1, s, b =>
    match lookupN s b with
    | none => (none, s)
    | some nb =>
      let r0s1 : InstRef × Store :=
        match create defaultRegistry s nb.className with
        | (some r, s1) => (r, s1)
        | (none, s1) =>
          runCtor s1 ⟨NodeKind.base, true, nb.className, nb.className, false⟩
      let r := r0s1.1
      let s2 := setNameGo r0s1.2 r.id (nameOf r0s1.2 b)
      let kids := childrenList s2 b
      let s3 := kids.foldl (fun acc c =>
          match cloneFuel fuel acc c.id with
          | (some cc, acc1) => setParentGo acc1 cc.id (some r)
          | (none, acc1) => acc1) s2
      (some r, s3)

/-- The body of `Clone`'s child loop (clone the child; if the clone is
non-nil, reattach it under the copy `rootId`). -/
def cloneStep (fuel rootId : Nat) (acc : Store) (c : InstRef) : Store :=
  match cloneFuel fuel acc c.id with
  | (some cc, acc1) => setParentGo acc1 cc.id (some (baseRef rootId))
  | (none, acc1) => acc1

/-- The shape of a subtree: name, class tag, and the shapes of the
children in order (what claim C7 calls structural isomorphism). -/
inductive ShapeT where
  | node (nm cls : String) (kids : List ShapeT)

/-- Extract the shape of the subtree rooted at `b`, to depth `fuel`. -/
def shapeFuel : Nat → Store → Nat → ShapeT
  | 0, _, _ => ShapeT.node emptyStr emptyStr []
  | fuel + 1, s, b =>
    ShapeT.node (nameOf s b) (classOf s b)
      ((childrenList s b).map (fun c => shapeFuel fuel s c.id))

/-! ## Path lookup (`instanceManager.FindByPath`) -/

def dotChar : Char := '.'

/-- `strings.Split(path, ".")` on the character list. -/
def splitSeg : List Char → List Char → List (List Char)
  | [], acc => [acc.reverse]
  | c :: cs, acc =>
    if c = dotChar then acc.reverse :: splitSeg cs [] else splitSeg cs (c :: acc)

def pathSegs (p : String) : List String :=
  (splitSeg p.data []).map String.mk

/-- The `for _, part := range parts[1:]` loop of `FindByPath`: check for
nil, then step through `FindFirstChild`. -/
def findSegs (s : Store) : Option InstRef → List String → Option InstRef
  | cur, [] => cur
  | none, _ :: _ => none
  | some c, seg :: rest => findSegs s (findFirstChild s c.id seg) rest

/-- `instanceManager.FindByPath`, given the manager's root (assumed set;
`GetRoot` returns it unchanged then).  The first segment is compared
with the root's own name; on mismatch it is looked up among the root's
children instead, and failure there resolves to nothing. -/
def findByPathFrom (s : Store) (root : InstRef) (path : String) : Option InstRef :=
  if path = emptyStr then none
  else
    match pathSegs path with
    | [] => none
    | seg0 :: rest =>
      let cur0 :=
        if nameOf s root.id = seg0 then some root
        else findFirstChild s root.id seg0
      match cur0 with
      | none => none
      | some c => findSegs s (some c) rest

/-! ## Network manager (`manager.go`) -/

/-- `binary.BigEndian.PutUint32` of `uint32 n` (big-endian bytes of
`n mod 2^32`, which for each byte agrees with the plain base-256 digits
shown here). -/
def be32 (n : Nat) : List Nat :=
  [n / 16777216 % 256, n / 65536 % 256, n / 256 % 256, n % 256]

/-- `binary.BigEndian.Uint32` of the first four bytes. -/
def be32val : List Nat → Nat
  | b0 :: b1 :: b2 :: b3 :: _ => ((b0 * 256 + b1) * 256 + b2) * 256 + b3
  | _ => 0

/-- The byte sequence written by `SendPacket` (both
`NetworkManager.SendPacket` and `ClientConn.SendPacket` write exactly
this under the send mutex): 4-byte big-endian length `2 + len(payload)`,
then the type byte, the subtype byte, and the payload. -/
def sendPacketBytes (pt ps : Nat) (payload : List Nat) : List Nat :=
  be32 (2 + payload.length) ++ pt :: ps :: payload

/-- Why one iteration of `readLoop` dropped the connection. -/
inductive FrameErr where
  | headerShort
  | invalidLen
  | bodyShort
  deriving DecidableEq, Repr

/-- One iteration of `NetworkManager.readLoop`: read exactly 4 header
bytes, reject `bodyLen < 2` (`invalid body length`, the connection is
closed and the loop returns — no packet is produced), read exactly
`bodyLen` body bytes, and emit `(body[0], body[1], body[2:])` together
with the unconsumed rest of the stream.  Every `error` case closes the
connection and terminates the loop. -/
def decodeFrame (stream : List Nat) :
    Except FrameErr ((Nat × Nat × List Nat) × List Nat) :=
  if stream.length < 4 then Except.error FrameErr.headerShort
  else
    let len := be32val (stream.take 4)
    let rest := stream.drop 4
    if len < 2 then Except.error FrameErr.invalidLen
    else if rest.length < len then Except.error FrameErr.bodyShort
    else
      let body := rest.take len
      Except.ok ((body.getD 0 0, body.getD 1 0, body.drop 2), rest.drop len)

/-- Client-mode connection state of a `NetworkManager`: `none` models a
nil `nm.conn`, `some buf` a dialed connection whose socket has received
the bytes `buf` so far. -/
structure NMState where
  conn : Option (List Nat)
  deriving DecidableEq, Repr

/-- `NetworkManager.SendPacket`.  Second component `true` means an error
was returned (`not connected` when no connection was dialed), in which
case the state is returned unchanged and no bytes are written. -/
def nmSendPacket (st : NMState) (pt ps : Nat) (payload : List Nat) :
    NMState × Bool :=
  match st.conn with
  | none => (st, true)
  | some buf => (⟨some (buf ++ sendPacketBytes pt ps payload)⟩, false)

/-- A `*ClientConn` handle: `none` models a nil handle; a non-nil handle
wraps a socket that may itself be nil. -/
structure ClientConnS where
  conn : Option (List Nat)
  deriving DecidableEq, Repr

/-- `ClientConn.SendPacket`: errors (`client not connected`) when the
handle or its socket is nil, leaving everything unchanged; otherwise
writes one frame. -/
def clientSendPacket (c : Option ClientConnS) (pt ps : Nat)
    (payload : List Nat) : Option ClientConnS × Bool :=
  match c with
  | none => (none, true)
  | some cs =>
    match cs.conn with
    | none => (some cs, true)
    | some buf => (some ⟨some (buf ++ sendPacketBytes pt ps payload)⟩, false)

/-- Externally visible actions of `NetworkManager.Connect`, in program
order. -/
inductive NetAct where
  | dialTCP
  | startRecvLoop
  | sendBytes (pt ps : Nat) (payload : List Nat)
  | closeAll
  deriving DecidableEq, Repr

/-- `NetworkManager.Connect` as its sequence of externally visible
actions plus an error flag: dial (abort on failure), store the
connection, start the read loop goroutine, then send the handshake
packet `(0x00, 0x01, key)`; if that send fails, `Close` everything and
return the error. -/
def connectTrace (dialOk sendOk : Bool) (key : List Nat) :
    List NetAct × Bool :=
  if dialOk = false then ([NetAct.dialTCP], true)
  else if sendOk then
    ([NetAct.dialTCP, NetAct.startRecvLoop, NetAct.sendBytes 0 1 key], false)
  else
    ([NetAct.dialTCP, NetAct.startRecvLoop, NetAct.sendBytes 0 1 key,
      NetAct.closeAll], true)

/-! ## Well-formedness of a store

These predicates capture the invariants that the tree code maintains for
states built through `SetParent` with tree-stored (base-view) references:
every entry of a children slice is the `*BaseInstance` view of an
existing node whose `parent` field points back at the list owner, and a
node sits in at most one children slice, at most once.  A rank function
witnesses acyclicity of the child graph (Go pointer trees built by
`SetParent` are acyclic in all reachable states the claims quantify
over; the recursive methods do not terminate otherwise). -/

/-- One children-slice entry is coherent: base view, the node exists,
and its parent back-reference is the list owner `p`. -/
def childOK (s : Store) (p : Nat) (r : InstRef) : Prop :=
  r.asBase = true ∧ (lookupN s r.id).isSome ∧ parentOf s r.id = some (baseRef p)

def wfChildren (s : Store) : Prop :=
  ∀ e ∈ s.entries, ∀ r ∈ e.2.children.getD [], childOK s e.1 r

/-- All children-slice entries of the whole store, concatenated. -/
def allChildRefs (s : Store) : List InstRef :=
  s.entries.flatMap (fun e => e.2.children.getD [])

/-- No node id occurs twice among all children slices. -/
def wfOnce (s : Store) : Prop :=
  ((allChildRefs s).map InstRef.id).Nodup

def wfKeys (s : Store) : Prop :=
  (s.entries.map Prod.fst).Nodup

def WF (s : Store) : Prop :=
  wfChildren s ∧ wfOnce s ∧ wfKeys s

/-- Acyclicity witness: children have strictly larger rank. -/
def RK (s : Store) (rk : Nat → Nat) : Prop :=
  ∀ e ∈ s.entries, ∀ r ∈ e.2.children.getD [], rk e.1 < rk r.id

/-- All ranks lie below `bound`. -/
def RankBound (s : Store) (rk : Nat → Nat) (bound : Nat) : Prop :=
  ∀ e ∈ s.entries, rk e.1 < bound

/-- Every entry id lies below the allocation counter. -/
def wfBelow (s : Store) : Prop :=
  ∀ e ∈ s.entries, e.1 < s.nextId

/-- Every children-slice entry references an existing node. -/
def wfRefsExist (s : Store) : Prop :=
  ∀ e ∈ s.entries, ∀ r ∈ e.2.children.getD [], (lookupN s r.id).isSome

/-- The store fragment of well-formedness needed by the cloning claim. -/
def WFc (s : Store) : Prop :=
  wfKeys s ∧ wfBelow s ∧ wfRefsExist s

/-- Reachability along children slices (`y` lies in the subtree rooted
at `a`, the root included). -/
inductive Chain (s : Store) : Nat → Nat → Prop where
  | refl (a : Nat) : Chain s a a
  | step {a b : Nat} {r : InstRef} (h : Chain s a b)
      (hm : r ∈ childrenList s b) : Chain s a r.id

/-- Acyclicity witness restricted to original nodes: every entry whose
id lies below `n0` has children of strictly larger rank whose ids also
lie below `n0` (fresh clones, with ids at least `n0`, are exempt). -/
def RKbelow (s : Store) (rk : Nat → Nat) (n0 : Nat) : Prop :=
  ∀ e ∈ s.entries, e.1 < n0 →
    ∀ r ∈ e.2.children.getD [], rk e.1 < rk r.id ∧ r.id < n0

instance (s : Store) (rk : Nat → Nat) (n0 : Nat) : Decidable (RKbelow s rk n0) := by
  unfold RKbelow
  exact inferInstance

/-- Invariant carried by a cloning run started on store `s`: the basic
store invariants hold, the allocator only moved forward, nothing with an
id below the original allocation mark was touched, and every node at or
above the mark has children strictly above the mark. -/
def CloneInv (s u : Store) (rk : Nat → Nat) (n0 : Nat) : Prop :=
  wfKeys u ∧ wfBelow u ∧ wfRefsExist u ∧ RKbelow u rk n0 ∧
  s.nextId ≤ u.nextId ∧
  (∀ i, i < s.nextId → lookupN u i = lookupN s i) ∧
  (∀ i, s.nextId ≤ i → ∀ rr ∈ childrenList u i, s.nextId < rr.id)

instance (s : Store) (p : Nat) (r : InstRef) : Decidable (childOK s p r) := by
  unfold childOK
  exact inferInstance

instance (s : Store) : Decidable (wfChildren s) := by
  unfold wfChildren
  exact inferInstance

instance (s : Store) : Decidable (wfOnce s) := by
  unfold wfOnce
  exact inferInstance

instance (s : Store) : Decidable (wfKeys s) := by
  unfold wfKeys
  exact inferInstance

instance (s : Store) : Decidable (WF s) := by
  unfold WF
  exact inferInstance

instance (s : Store) (rk : Nat → Nat) : Decidable (RK s rk) := by
  unfold RK
  exact inferInstance

instance (s : Store) (rk : Nat → Nat) (bound : Nat) :
    Decidable (RankBound s rk bound) := by
  unfold RankBound
  exact inferInstance

instance (s : Store) : Decidable (wfBelow s) := by
  unfold wfBelow
  exact inferInstance

instance (s : Store) : Decidable (wfRefsExist s) := by
  unfold wfRefsExist
  exact inferInstance

instance (s : Store) : Decidable (WFc s) := by
  unfold WFc
  exact inferInstance

/-- Per-list occurrence count of the id `y`. -/
def cntId (l : List InstRef) (y : Nat) : Nat :=
  l.countP (fun r => r.id == y)

/-- No children slice of `s` mentions the id `y`. -/
def gone (s : Store) (y : Nat) : Prop :=
  ∀ q, cntId (childrenList s q) y = 0

/-! ## Concrete stores for the scenarios of the claims -/

def strRoot : String := "Root"
def strA : String := "A"
def strB : String := "B"
def strD : String := "D"
def strN : String := "N"
def strPart : String := "Part"
def strExamplePart : String := "ExamplePart"
def strGadget : String := "Gadget"

/-- A plain base node (as built by `NewBaseInstance(className)` and then
possibly renamed / reparented), given explicitly. -/
def mkBase (nm cls : String) (parent : Option InstRef)
    (children : List InstRef) : Node :=
  ⟨NodeKind.base, nm, cls, parent, some children⟩

/-- The constructor registered for `"Part"` in `datamodel.InitManager`:
`NewPart` builds a `*Part` (so the returned interface value does not
pass `.(*BaseInstance)` assertions), named `"ExamplePart"`, class
`"Part"`, with a non-nil empty children slice. -/
def partCtor : CtorSpec :=
  ⟨NodeKind.part, false, strExamplePart, strPart, false⟩

/-- A sloppy subclass constructor for claim C4: it builds a concrete
(non-`BaseInstance`) node and leaves both the children slice nil and the
class name unset — exactly what the spec says the factory backfills. -/
def gadgetCtor : CtorSpec :=
  ⟨NodeKind.part, false, strGadget, emptyStr, true⟩

/-- Registry holding `"Part" ↦ NewPart` (a fragment of the datamodel
manager's registry). -/
def regWithPart : Registry := [(strPart, some partCtor)]

/-- Registry holding `"Gadget"` bound to the sloppy subclass
constructor. -/
def regWithGadget : Registry := [(strGadget, some gadgetCtor)]

/-- Store for claim C1's counterexample: one base node `A` (id 0) with
no parent and no children. -/
def storeA : Store := ⟨[(0, mkBase strA strA none [])], 1⟩

/-- Claim C1 counterexample data: create a `"Part"` through the factory
(the repository does exactly this via `datamodel.CreateInstance`); the
returned interface value is the fresh `*Part`. -/
def storeAPart : Store := (create regWithPart storeA strPart).2

def partRefC1 : InstRef := ⟨1, false⟩

/-- Store for claim C3's counterexample and witness: parent `P` (id 0)
with children `[A, C]` in that order (`A` = id 1, `C` = id 2). -/
def storePAC : Store :=
  ⟨[(0, mkBase strRoot strRoot none [baseRef 1, baseRef 2]),
    (1, mkBase strA strA (some (baseRef 0)) []),
    (2, mkBase strB strB (some (baseRef 0)) [])], 3⟩

/-- Store for claim C5's scenario: root `"Root"` (id 0) with child `"A"`
(id 1) which has child `"B"` (id 2). -/
def storeRootAB : Store :=
  ⟨[(0, mkBase strRoot strRoot none [baseRef 1]),
    (1, mkBase strA strA (some (baseRef 0)) [baseRef 2]),
    (2, mkBase strB strB (some (baseRef 1)) [])], 3⟩

def pathRootAB : String := "Root.A.B"
def pathAB : String := "A.B"
def pathRootAC : String := "Root.A.C"

/-- Store for claim C6's witness: ancestor `A` (id 0) with children `N`
(id 1) and `B` (id 3); `N` has child `D` (id 2). -/
def storeAND : Store :=
  ⟨[(0, mkBase strA strA none [baseRef 1, baseRef 3]),
    (1, mkBase strN strN (some (baseRef 0)) [baseRef 2]),
    (2, mkBase strD strD (some (baseRef 1)) []),
    (3, mkBase strB strB (some (baseRef 0)) [])], 4⟩

def strABC : String := "abc"

/-- Payload bytes of the string `"abc"`. -/
def payloadABC : List Nat := [97, 98, 99]

/-- Session key bytes used in the C8 scenario. -/
def keyBytes : List Nat := [107, 101, 121]

/-- Store for claim C1's witness: two plain base nodes `A` (id 0) and
`B` (id 1), unrelated. -/
def storeAB : Store :=
  ⟨[(0, mkBase strA strA none []), (1, mkBase strB strB none [])], 2⟩

/-! ## Helper lemmas: association-list lookup and in-place update -/

theorem lookup_cons_pair (k k1 : Nat) (v1 : Node) (es : List (Nat × Node)) :
    List.lookup k ((k1, v1) :: es) = if k = k1 then some v1 else List.lookup k es := by
  cases hb : k == k1 with
  | true =>
    have h : k = k1 := by simpa using hb
    simp [List.lookup, hb, h]
  | false =>
    have h : ¬ k = k1 := by simpa using hb
    simp [List.lookup, hb, h]

theorem lookup_pair_mem {k : Nat} {v : Node} :
    ∀ {l : List (Nat × Node)}, List.lookup k l = some v → (k, v) ∈ l := by
  intro l
  induction l with
  | nil => intro h; simp [List.lookup] at h
  | cons e es ih =>
    intro h
    rcases e with ⟨k1, v1⟩
    rw [lookup_cons_pair] at h
    by_cases hk : k = k1
    · rw [if_pos hk] at h
      injection h with h
      subst hk
      subst h
      exact List.mem_cons_self _ _
    · rw [if_neg hk] at h
      exact List.mem_cons_of_mem _ (ih h)

theorem lookupN_mem {s : Store} {i : Nat} {n : Node}
    (h : lookupN s i = some n) : (i, n) ∈ s.entries :=
  lookup_pair_mem h

theorem lookup_map_update (i j : Nat) (f : Node → Node) :
    ∀ l : List (Nat × Node),
      List.lookup j (l.map (fun e => if e.1 = i then (e.1, f e.2) else e)) =
        if j = i then (List.lookup j l).map f else List.lookup j l := by
  intro l
  induction l with
  | nil => by_cases h : j = i <;> simp [List.lookup, h]
  | cons e es ih =>
    rcases e with ⟨k1, v1⟩
    rw [List.map_cons]
    by_cases hk : k1 = i
    · have hsel : (if (k1, v1).1 = i then ((k1, v1).1, f (k1, v1).2) else (k1, v1)) = (k1, f v1) := by
        simp [hk]
      rw [hsel]
      by_cases hj : j = k1
      · subst hj
        rw [lookup_cons_pair, lookup_cons_pair, if_pos rfl, if_pos rfl, if_pos hk]
        rfl
      · rw [lookup_cons_pair, lookup_cons_pair, if_neg hj, if_neg hj, ih]
    · have hsel : (if (k1, v1).1 = i then ((k1, v1).1, f (k1, v1).2) else (k1, v1)) = (k1, v1) := by
        simp [hk]
      rw [hsel]
      by_cases hj : j = k1
      · subst hj
        have hji : ¬ j = i := fun hji => hk (hji ▸ rfl)
        rw [lookup_cons_pair, lookup_cons_pair, if_pos rfl, if_pos rfl, if_neg hji]
      · rw [lookup_cons_pair, lookup_cons_pair, if_neg hj, if_neg hj, ih]

theorem lookupN_updateN (s : Store) (i j : Nat) (f : Node → Node) :
    lookupN (updateN s i f) j =
      if j = i then (lookupN s j).map f else lookupN s j := by
  rcases s with ⟨entries, nx⟩
  simpa [lookupN, updateN] using lookup_map_update i j f entries

theorem lookupN_updateN_self {s : Store} {i : Nat} {n : Node} (f : Node → Node)
    (h : lookupN s i = some n) : lookupN (updateN s i f) i = some (f n) := by
  rw [lookupN_updateN, if_pos rfl, h]
  rfl

theorem lookupN_updateN_other {s : Store} {i j : Nat} (f : Node → Node)
    (h : j ≠ i) : lookupN (updateN s i f) j = lookupN s j := by
  rw [lookupN_updateN, if_neg h]

theorem childrenList_update_preserve (f : Node → Node)
    (hf : ∀ n, (f n).children = n.children) (s : Store) (i j : Nat) :
    childrenList (updateN s i f) j = childrenList s j := by
  unfold childrenList
  rw [lookupN_updateN]
  by_cases h : j = i
  · rw [if_pos h]
    cases lookupN s j with
    | none => rfl
    | some n => simp [hf]
  · rw [if_neg h]

theorem parentOf_update_preserve (f : Node → Node)
    (hf : ∀ n, (f n).parent = n.parent) (s : Store) (i j : Nat) :
    parentOf (updateN s i f) j = parentOf s j := by
  unfold parentOf
  rw [lookupN_updateN]
  by_cases h : j = i
  · rw [if_pos h]
    cases lookupN s j with
    | none => rfl
    | some n => simp [hf]
  · rw [if_neg h]

theorem nameOf_update_preserve (f : Node → Node)
    (hf : ∀ n, (f n).name = n.name) (s : Store) (i j : Nat) :
    nameOf (updateN s i f) j = nameOf s j := by
  unfold nameOf
  rw [lookupN_updateN]
  by_cases h : j = i
  · rw [if_pos h]
    cases lookupN s j with
    | none => rfl
    | some n => simp [hf]
  · rw [if_neg h]

theorem childrenList_addChild_self {s : Store} {p : Nat} (c : InstRef)
    (h : (lookupN s p).isSome) :
    childrenList (addChild s p c) p = childrenList s p ++ [c] := by
  rcases Option.isSome_iff_exists.mp h with ⟨n, hn⟩
  unfold childrenList addChild
  rw [lookupN_updateN_self _ hn, hn]
  rfl

theorem childrenList_addChild_other {s : Store} {p q : Nat} (c : InstRef)
    (h : q ≠ p) : childrenList (addChild s p c) q = childrenList s q := by
  unfold childrenList addChild
  rw [lookupN_updateN_other _ h]

theorem childrenList_removeChild_self (s : Store) (p : Nat) (c : InstRef) :
    childrenList (removeChild s p c) p = removeFirst (childrenList s p) c := by
  unfold childrenList removeChild
  rw [lookupN_updateN, if_pos rfl]
  cases lookupN s p with
  | none => rfl
  | some n =>
    rcases n with ⟨k, nm, cl, pa, ch⟩
    cases ch with
    | none => rfl
    | some l => rfl

theorem childrenList_removeChild_other {s : Store} {p q : Nat} (c : InstRef)
    (h : q ≠ p) : childrenList (removeChild s p c) q = childrenList s q := by
  unfold childrenList removeChild
  rw [lookupN_updateN_other _ h]

theorem parentOf_addChild (s : Store) (p : Nat) (c : InstRef) (j : Nat) :
    parentOf (addChild s p c) j = parentOf s j := by
  unfold addChild
  exact parentOf_update_preserve
    (fun n => { n with children := some (n.children.getD [] ++ [c]) })
    (fun n => rfl) s p j

theorem parentOf_removeChild (s : Store) (p : Nat) (c : InstRef) (j : Nat) :
    parentOf (removeChild s p c) j = parentOf s j := by
  unfold removeChild
  exact parentOf_update_preserve
    (fun n => { n with children := n.children.map (fun l => removeFirst l c) })
    (fun n => rfl) s p j

theorem nameOf_addChild (s : Store) (p : Nat) (c : InstRef) (j : Nat) :
    nameOf (addChild s p c) j = nameOf s j := by
  unfold addChild
  exact nameOf_update_preserve
    (fun n => { n with children := some (n.children.getD [] ++ [c]) })
    (fun n => rfl) s p j

theorem nameOf_removeChild (s : Store) (p : Nat) (c : InstRef) (j : Nat) :
    nameOf (removeChild s p c) j = nameOf s j := by
  unfold removeChild
  exact nameOf_update_preserve
    (fun n => { n with children := n.children.map (fun l => removeFirst l c) })
    (fun n => rfl) s p j

/-! ## Helper lemmas: `removeFirst` and occurrence counts -/

theorem removeFirst_sublist (l : List InstRef) (c : InstRef) :
    List.Sublist (removeFirst l c) l := by
  induction l with
  | nil => exact List.Sublist.refl _
  | cons x xs ih =>
    by_cases h : x = c
    · simp only [removeFirst, if_pos h]
      exact List.sublist_cons_self x xs
    · simp only [removeFirst, if_neg h]
      exact List.Sublist.cons₂ x ih

theorem removeFirst_of_not_mem {l : List InstRef} {c : InstRef}
    (h : c ∉ l) : removeFirst l c = l := by
  induction l with
  | nil => rfl
  | cons x xs ih =>
    have hx : x ≠ c := fun hxc => h (hxc ▸ List.mem_cons_self x xs)
    have hxs : c ∉ xs := fun hm => h (List.mem_cons_of_mem _ hm)
    simp only [removeFirst, if_neg hx, ih hxs]

theorem cntId_nil (y : Nat) : cntId [] y = 0 := rfl

theorem cntId_cons (x : InstRef) (xs : List InstRef) (y : Nat) :
    cntId (x :: xs) y = cntId xs y + if x.id = y then 1 else 0 := by
  by_cases h : x.id = y
  · simp [cntId, List.countP_cons, h]
  · simp [cntId, List.countP_cons, h]

theorem cntId_append (l1 l2 : List InstRef) (y : Nat) :
    cntId (l1 ++ l2) y = cntId l1 y + cntId l2 y := by
  simp [cntId, List.countP_append]

theorem cntId_eq_zero_iff {l : List InstRef} {y : Nat} :
    cntId l y = 0 ↔ ∀ r ∈ l, r.id ≠ y := by
  simp [cntId, List.countP_eq_zero]

theorem cntId_sublist_le {l1 l2 : List InstRef} (h : List.Sublist l1 l2) (y : Nat) :
    cntId l1 y ≤ cntId l2 y :=
  h.countP_le _

theorem cnt_removeFirst_other {l : List InstRef} {c : InstRef} {y : Nat}
    (h : c.id ≠ y) : cntId (removeFirst l c) y = cntId l y := by
  induction l with
  | nil => rfl
  | cons x xs ih =>
    by_cases hx : x = c
    · simp only [removeFirst, if_pos hx]
      rw [cntId_cons, hx, if_neg h]
      simp
    · simp only [removeFirst, if_neg hx]
      rw [cntId_cons, cntId_cons, ih]

theorem cnt_removeFirst_base {l : List InstRef} {y : Nat}
    (hle : cntId l y ≤ 1)
    (hbase : ∀ r ∈ l, r.id = y → r = baseRef y) :
    cntId (removeFirst l (baseRef y)) y = 0 := by
  induction l with
  | nil => rfl
  | cons x xs ih =>
    by_cases hx : x = baseRef y
    · simp only [removeFirst, if_pos hx]
      have hxid : x.id = y := by rw [hx]; rfl
      rw [cntId_cons, if_pos hxid] at hle
      omega
    · have hxid : x.id ≠ y := fun hid =>
        hx (hbase x (List.mem_cons_self x xs) hid)
      simp only [removeFirst, if_neg hx]
      rw [cntId_cons, if_neg hxid]
      rw [cntId_cons, if_neg hxid] at hle
      have := ih (by omega) (fun r hr hid => hbase r (List.mem_cons_of_mem _ hr) hid)
      omega

theorem mem_flatMap_children {l : List (Nat × Node)} {e : Nat × Node}
    (he : e ∈ l) :
    List.Sublist (e.2.children.getD []) (l.flatMap (fun e => e.2.children.getD [])) := by
  induction l with
  | nil => cases he
  | cons a as ih =>
    rcases List.mem_cons.mp he with h | h
    · subst h
      rw [List.flatMap_cons]
      exact List.sublist_append_left _ _
    · rw [List.flatMap_cons]
      exact (ih h).trans (List.sublist_append_right _ _)

/-- Under `wfOnce`, any one children slice mentions an id at most once. -/
theorem cnt_le_one {s : Store} (honce : wfOnce s) (q y : Nat) :
    cntId (childrenList s q) y ≤ 1 := by
  cases hl : lookupN s q with
  | none => simp [childrenList, hl, cntId]
  | some n =>
    have hmem : (q, n) ∈ s.entries := lookupN_mem hl
    have hsub : List.Sublist (childrenList s q) (allChildRefs s) := by
      have := mem_flatMap_children hmem
      simpa [childrenList, hl, allChildRefs] using this
    have h1 : cntId (childrenList s q) y ≤ cntId (allChildRefs s) y :=
      cntId_sublist_le hsub y
    have h2 : cntId (allChildRefs s) y ≤ 1 := by
      have hcount := List.nodup_iff_count_le_one.mp honce y
      have : cntId (allChildRefs s) y =
          ((allChildRefs s).map InstRef.id).count y := by
        simp [cntId, List.count, List.countP_map]
        rfl
      omega
    omega

/-- Under `wfChildren`, an id occurring in the children slice of `q` has
its parent back-reference at `q`. -/
theorem occurs_located {s : Store} (hwf : wfChildren s) {q y : Nat}
    (h : cntId (childrenList s q) y ≠ 0) :
    parentOf s y = some (baseRef q) := by
  have hpos : 0 < (childrenList s q).countP (fun r => r.id == y) :=
    Nat.pos_of_ne_zero h
  rcases List.countP_pos_iff.mp hpos with ⟨r, hrmem, hrid⟩
  have hrid : r.id = y := by simpa using hrid
  cases hl : lookupN s q with
  | none => simp [childrenList, hl] at hrmem
  | some n =>
    have hmem : (q, n) ∈ s.entries := lookupN_mem hl
    have hok : childOK s q r := by
      have hr : r ∈ n.children.getD [] := by
        simpa [childrenList, hl] using hrmem
      exact hwf (q, n) hmem r hr
    rw [← hrid]
    exact hok.2.2

/-- Under `wfChildren`, a children-slice element with id `y` is the base
view of `y`. -/
theorem occurs_base {s : Store} (hwf : wfChildren s) {q y : Nat} {r : InstRef}
    (hr : r ∈ childrenList s q) (hid : r.id = y) : r = baseRef y := by
  cases hl : lookupN s q with
  | none => simp [childrenList, hl] at hr
  | some n =>
    have hmem : (q, n) ∈ s.entries := lookupN_mem hl
    have hok : childOK s q r := by
      have hr : r ∈ n.children.getD [] := by
        simpa [childrenList, hl] using hr
      exact hwf (q, n) hmem r hr
    rcases r with ⟨rid, rb⟩
    have hb : rb = true := hok.1
    subst hb
    simp [baseRef]
    exact hid

/-! ## Helper lemmas: further store facts -/

theorem lookupN_updateN_isSome (s : Store) (i j : Nat) (f : Node → Node) :
    (lookupN (updateN s i f) j).isSome = (lookupN s j).isSome := by
  rw [lookupN_updateN]
  by_cases h : j = i
  · rw [if_pos h]
    cases lookupN s j <;> rfl
  · rw [if_neg h]

theorem parentOf_setField {s : Store} {i : Nat} (pr : Option InstRef)
    (h : (lookupN s i).isSome) :
    parentOf (updateN s i (fun n => { n with parent := pr })) i = pr := by
  rcases Option.isSome_iff_exists.mp h with ⟨n, hn⟩
  unfold parentOf
  rw [lookupN_updateN_self _ hn]
  rfl

theorem mem_removeFirst_of_ne {l : List InstRef} {r c : InstRef}
    (hr : r ∈ l) (hne : r ≠ c) : r ∈ removeFirst l c := by
  induction l with
  | nil => cases hr
  | cons x xs ih =>
    by_cases hx : x = c
    · simp only [removeFirst, if_pos hx]
      rcases List.mem_cons.mp hr with h | h
      · exact absurd (h.trans hx) hne
      · exact h
    · simp only [removeFirst, if_neg hx]
      rcases List.mem_cons.mp hr with h | h
      · exact h ▸ List.mem_cons_self _ _
      · exact List.mem_cons_of_mem _ (ih h)

/-! ## Helper lemmas: string association lists (the class registry) -/

theorem lookup_cons_str (k k1 : String) (v1 : Ctor) (es : Registry) :
    List.lookup k ((k1, v1) :: es) = if k = k1 then some v1 else List.lookup k es := by
  cases hb : k == k1 with
  | true =>
    have h : k = k1 := by simpa using hb
    simp [List.lookup, hb, h]
  | false =>
    have h : ¬ k = k1 := by simpa using hb
    simp [List.lookup, hb, h]

theorem lookup_none_forall_str {k : String} :
    ∀ {l : Registry}, List.lookup k l = none → ∀ e ∈ l, e.1 ≠ k := by
  intro l
  induction l with
  | nil => intro _ e he; cases he
  | cons a as ih =>
    intro h e he
    rcases a with ⟨k1, v1⟩
    rw [lookup_cons_str] at h
    by_cases hk : k = k1
    · rw [if_pos hk] at h; cases h
    · rw [if_neg hk] at h
      rcases List.mem_cons.mp he with hh | hh
      · subst hh; exact fun hc => hk hc.symm
      · exact ih h e hh

theorem regLookup_insert_self (reg : Registry) (nm : String) (c : Ctor) :
    regLookup (regInsert reg nm c) nm = some c := by
  unfold regInsert regLookup
  by_cases hpres : (List.lookup nm reg).isSome
  · rw [if_pos hpres]
    rcases Option.isSome_iff_exists.mp hpres with ⟨v, hv⟩
    clear hpres
    induction reg with
    | nil => simp [List.lookup] at hv
    | cons e es ih =>
      rcases e with ⟨k1, v1⟩
      rw [List.map_cons]
      by_cases hk : k1 = nm
      · have hsel : (if (k1, v1).1 = nm then (nm, c) else (k1, v1)) = (nm, c) := by
          simp [hk]
        rw [hsel, lookup_cons_str, if_pos rfl]
      · have hsel : (if (k1, v1).1 = nm then (nm, c) else (k1, v1)) = (k1, v1) := by
          simp [hk]
        rw [hsel, lookup_cons_str, if_neg (fun h => hk h.symm)]
        rw [lookup_cons_str, if_neg (fun h => hk h.symm)] at hv
        exact ih hv
  · rw [if_neg hpres]
    have hnone : List.lookup nm reg = none := by
      cases hl : List.lookup nm reg with
      | none => rfl
      | some v => rw [hl] at hpres; simp at hpres
    clear hpres
    induction reg with
    | nil => simp [List.lookup, lookup_cons_str]
    | cons e es ih =>
      rcases e with ⟨k1, v1⟩
      rw [lookup_cons_str] at hnone
      by_cases hk : nm = k1
      · rw [if_pos hk] at hnone; cases hnone
      · rw [if_neg hk] at hnone
        rw [List.cons_append, lookup_cons_str, if_neg hk]
        exact ih hnone

theorem regLookup_insert_other {reg : Registry} {nm other : String} (c : Ctor)
    (h : other ≠ nm) :
    regLookup (regInsert reg nm c) other = regLookup reg other := by
  unfold regInsert regLookup
  by_cases hpres : (List.lookup nm reg).isSome
  · rw [if_pos hpres]
    clear hpres
    induction reg with
    | nil => rfl
    | cons e es ih =>
      rcases e with ⟨k1, v1⟩
      rw [List.map_cons]
      by_cases hk : k1 = nm
      · have hsel : (if (k1, v1).1 = nm then (nm, c) else (k1, v1)) = (nm, c) := by
          simp [hk]
        rw [hsel, lookup_cons_str, if_neg h, lookup_cons_str, if_neg (hk ▸ h), ih]
      · have hsel : (if (k1, v1).1 = nm then (nm, c) else (k1, v1)) = (k1, v1) := by
          simp [hk]
        rw [hsel, lookup_cons_str, lookup_cons_str, ih]
  · rw [if_neg hpres]
    have hnone : List.lookup nm reg = none := by
      cases hl : List.lookup nm reg with
      | none => rfl
      | some v => rw [hl] at hpres; simp at hpres
    clear hpres
    induction reg with
    | nil =>
      rw [List.nil_append, lookup_cons_str, if_neg h]
    | cons e es ih =>
      rcases e with ⟨k1, v1⟩
      rw [lookup_cons_str] at hnone
      by_cases hnm : nm = k1
      · rw [if_pos hnm] at hnone; cases hnone
      · rw [if_neg hnm] at hnone
        rw [List.cons_append, lookup_cons_str, lookup_cons_str]
        by_cases hk : other = k1
        · rw [if_pos hk, if_pos hk]
        · rw [if_neg hk, if_neg hk, ih hnone]

theorem lookup_append_none {k : Nat} {l1 l2 : List (Nat × Node)}
    (h : List.lookup k l1 = none) :
    List.lookup k (l1 ++ l2) = List.lookup k l2 := by
  induction l1 with
  | nil => rfl
  | cons e es ih =>
    rcases e with ⟨k1, v1⟩
    rw [lookup_cons_pair] at h
    by_cases hk : k = k1
    · rw [if_pos hk] at h; cases h
    · rw [if_neg hk] at h
      rw [List.cons_append, lookup_cons_pair, if_neg hk]
      exact ih h

theorem lookup_none_forall {k : Nat} :
    ∀ {l : List (Nat × Node)}, List.lookup k l = none → ∀ e ∈ l, e.1 ≠ k := by
  intro l
  induction l with
  | nil => intro _ e he; cases he
  | cons a as ih =>
    intro h e he
    rcases a with ⟨k1, v1⟩
    rw [lookup_cons_pair] at h
    by_cases hk : k = k1
    · rw [if_pos hk] at h; cases h
    · rw [if_neg hk] at h
      rcases List.mem_cons.mp he with hh | hh
      · subst hh; exact fun hc => hk hc.symm
      · exact ih h e hh

theorem isSome_addChild (s : Store) (p : Nat) (c : InstRef) (j : Nat) :
    (lookupN (addChild s p c) j).isSome = (lookupN s j).isSome := by
  unfold addChild
  exact lookupN_updateN_isSome s p j _

theorem isSome_removeChild (s : Store) (p : Nat) (c : InstRef) (j : Nat) :
    (lookupN (removeChild s p c) j).isSome = (lookupN s j).isSome := by
  unfold removeChild
  exact lookupN_updateN_isSome s p j _

/-! ## Claims C10, C9, C2, C5, C8 and the C1/C3/C4 counterexamples -/

/-- C10: sending with no connection fails cleanly.
`NetworkManager.SendPacket` returns the `not connected` error when no
connection was dialed, `ClientConn.SendPacket` errors when the handle or
its socket is nil, and in every such case the state (and hence every
socket buffer) is returned unchanged: no bytes are written. -/
theorem C10_send_no_conn_spec :
    ∀ (pt ps : Nat) (payload : List Nat),
      nmSendPacket ⟨none⟩ pt ps payload = (⟨none⟩, true) ∧
      clientSendPacket none pt ps payload = (none, true) ∧
      clientSendPacket (some ⟨none⟩) pt ps payload = (some ⟨none⟩, true) :=
  fun _ _ _ => ⟨rfl, rfl, rfl⟩

/-- C9: `RegisterClass` errors exactly when the class name is empty or
the constructor is nil; on error the registry is unchanged; on success
the constructor is stored under the name and all other registrations are
untouched. -/
theorem C9_registerClass_spec (reg : Registry) (nm : String) (ctor : Option Ctor) :
    ((registerClass reg nm ctor).2 = true ↔ (nm = emptyStr ∨ ctor = none)) ∧
    ((registerClass reg nm ctor).2 = true → (registerClass reg nm ctor).1 = reg) ∧
    (∀ c : Ctor, ctor = some c → nm ≠ emptyStr →
      regLookup (registerClass reg nm ctor).1 nm = some c ∧
      ∀ other, other ≠ nm →
        regLookup (registerClass reg nm ctor).1 other = regLookup reg other) := by
  cases ctor with
  | none => simp [registerClass]
  | some c =>
    by_cases h : nm = emptyStr
    · simp [registerClass, h]
    · refine ⟨by simp [registerClass, h], by simp [registerClass, h], ?_⟩
      intro c2 hc2 _
      injection hc2 with hc2
      subst hc2
      simp only [registerClass, if_neg h]
      exact ⟨regLookup_insert_self reg nm _,
        fun other ho => regLookup_insert_other _ ho⟩

/-- Witness for C9 at concrete inputs. -/
theorem C9_registerClass_spec_witness :
    regLookup (registerClass [] strPart (some (some partCtor))).1 strPart =
      some (some partCtor) ∧
    (registerClass [] emptyStr (some (some partCtor))).1 = [] ∧
    (registerClass ([] : Registry) strPart none).1 = [] := by
  have h1 := C9_registerClass_spec [] strPart (some (some partCtor))
  have h2 := C9_registerClass_spec [] emptyStr (some (some partCtor))
  have h3 := C9_registerClass_spec ([] : Registry) strPart none
  refine ⟨(h1.2.2 (some partCtor) rfl (by decide)).1, ?_, ?_⟩
  · exact h2.2.1 (h2.1.mpr (Or.inl rfl))
  · exact h3.2.1 (h3.1.mpr (Or.inr rfl))

/-- C2: framing round-trip.  Encoding the packet `(7, 3, "abc")` and
decoding the produced bytes yields back exactly `(7, 3, "abc")` with
nothing left over; a frame whose length field is `1` (below the minimum
of `2`) is rejected by the read loop with the connection-terminating
`invalid body length` error, whatever bytes follow, and no packet is
produced. -/
theorem C2_frame_roundtrip :
    decodeFrame (sendPacketBytes 7 3 payloadABC) =
      Except.ok ((7, 3, payloadABC), []) ∧
    payloadABC = strABC.data.map Char.toNat ∧
    (∀ rest, decodeFrame (be32 1 ++ rest) = Except.error FrameErr.invalidLen) := by
  refine ⟨by rfl, by decide, ?_⟩
  intro rest
  have hb : be32 1 = 0 :: 0 :: 0 :: 1 :: [] := by decide
  rw [hb]
  simp [decodeFrame, be32val]

/-- C5: path resolution.  On the tree `Root → A → B`,
`FindByPath "Root.A.B"` and `FindByPath "A.B"` resolve to the same node
`B`, and `FindByPath "Root.A.C"` resolves to nothing; in general the
segment loop propagates a failed segment to a `nil` overall result. -/
theorem C5_findByPath_spec :
    findByPathFrom storeRootAB (baseRef 0) pathRootAB = some (baseRef 2) ∧
    findByPathFrom storeRootAB (baseRef 0) pathAB = some (baseRef 2) ∧
    findByPathFrom storeRootAB (baseRef 0) pathRootAC = none ∧
    ∀ (s : Store) (segs : List String), findSegs s none segs = none := by
  refine ⟨by decide, by decide, by decide, ?_⟩
  intro s segs
  cases segs with
  | nil => rfl
  | cons a l => rfl

/-- C8 counterexample: with a successful dial and send, `Connect` starts
the receive loop strictly before it sends the handshake packet — not
after, as the claim states. -/
theorem C8_connect_order_cex :
    (connectTrace true true keyBytes).1.indexOf NetAct.startRecvLoop <
      (connectTrace true true keyBytes).1.indexOf
        (NetAct.sendBytes 0 1 keyBytes) ∧
    ¬ ((connectTrace true true keyBytes).1.indexOf
          (NetAct.sendBytes 0 1 keyBytes) <
        (connectTrace true true keyBytes).1.indexOf NetAct.startRecvLoop) := by
  decide

/-- C8 (amended): in client mode `Connect` opens exactly one outbound
connection, starts exactly one receive loop, and sends the fixed
handshake packet `(type 0, subtype 1, payload = session key)` — but the
receive loop is started before the handshake send, not after.  A failed
dial aborts before either; a failed handshake send closes everything. -/
theorem C8_connect_spec (key : List Nat) :
    connectTrace true true key =
      ([NetAct.dialTCP, NetAct.startRecvLoop, NetAct.sendBytes 0 1 key],
        false) ∧
    (connectTrace true true key).1.count NetAct.dialTCP = 1 ∧
    (connectTrace true true key).1.count NetAct.startRecvLoop = 1 ∧
    connectTrace false true key = ([NetAct.dialTCP], true) ∧
    connectTrace true false key =
      ([NetAct.dialTCP, NetAct.startRecvLoop, NetAct.sendBytes 0 1 key,
        NetAct.closeAll], true) := by
  refine ⟨rfl, ?_, ?_, rfl, rfl⟩
  · simp [connectTrace, List.count_cons]
  · simp [connectTrace, List.count_cons]

/-- C1 counterexample: `B` here is the interface value returned by the
factory for the registered class `"Part"` (a `*Part`, as in
`datamodel.CreateInstance`).  After `A.SetParent(B)`, `A.GetParent()`
does return `B`, but `A` occurs zero times — not exactly once — in
`B.GetChildren()`, because the `parent.(*BaseInstance)` assertion fails
and the child is never appended. -/
theorem C1_setParent_subclass_cex :
    (create regWithPart storeA strPart).1 = some partRefC1 ∧
    partRefC1.asBase = false ∧
    parentOf (setParentGo storeAPart 0 (some partRefC1)) 0 = some partRefC1 ∧
    cntId (childrenList (setParentGo storeAPart 0 (some partRefC1)) 1) 0 = 0 := by
  decide

/-- C3 counterexample: `P` (id 0) has children `[A, C]` and `A`'s parent
is already `P`; after the no-op move `A.SetParent(P)` the children slice
is `[C, A]` — same membership, different order — because `SetParent`
removes `A` and re-appends it at the end. -/
theorem C3_noop_reparent_cex :
    parentOf storePAC 1 = some (baseRef 0) ∧
    childrenList storePAC 0 = [baseRef 1, baseRef 2] ∧
    childrenList (setParentGo storePAC 1 (some (baseRef 0))) 0 =
      [baseRef 2, baseRef 1] ∧
    childrenList (setParentGo storePAC 1 (some (baseRef 0))) 0 ≠
      childrenList storePAC 0 := by
  decide

/-- C4 counterexample: a registered class whose constructor returns a
concrete subclass value (`retBase = false`, like `NewPart`) with a nil
children slice and an empty class name.  `Create` returns the node as
constructed: the `inst.(*BaseInstance)` assertion fails, so nothing is
backfilled — the children slice stays nil (not empty-but-non-nil) and
the class name stays empty (not the registered name). -/
theorem C4_create_backfill_cex :
    regLookup regWithGadget strGadget = some (some gadgetCtor) ∧
    (create regWithGadget storeA strGadget).1 = some ⟨1, false⟩ ∧
    lookupN (create regWithGadget storeA strGadget).2 1 =
      some ⟨NodeKind.part, strGadget, emptyStr, none, none⟩ ∧
    emptyStr ≠ strGadget := by
  decide

/-- Shape of `SetParent` when the node has no current parent and the new
parent is a base-view reference. -/
theorem setParentGo_shape_noparent {s : Store} {A : Nat} {nA : Node} (B : Nat)
    (hA : lookupN s A = some nA) (hp : nA.parent = none) :
    setParentGo s A (some (baseRef B)) =
      addChild (updateN s A (fun n => { n with parent := some (baseRef B) }))
        B (baseRef A) := by
  simp only [setParentGo, hA, hp]
  rfl

/-- Shape of `SetParent` when the stored parent is a base-view reference
and the new parent is a base-view reference. -/
theorem setParentGo_shape_rm {s : Store} {A : Nat} {nA : Node} {P : InstRef} (B : Nat)
    (hA : lookupN s A = some nA) (hp : nA.parent = some P)
    (hb : P.asBase = true) :
    setParentGo s A (some (baseRef B)) =
      addChild (updateN (removeChild s P.id (baseRef A)) A
          (fun n => { n with parent := some (baseRef B) }))
        B (baseRef A) := by
  simp only [setParentGo, hA, hp, hb]
  rfl

/-- Shape of `SetParent` when the stored parent is a concrete-subclass
reference (the removal is a no-op) and the new parent is base-view. -/
theorem setParentGo_shape_nb {s : Store} {A : Nat} {nA : Node} {P : InstRef} (B : Nat)
    (hA : lookupN s A = some nA) (hp : nA.parent = some P)
    (hb : P.asBase = false) :
    setParentGo s A (some (baseRef B)) =
      addChild (updateN s A (fun n => { n with parent := some (baseRef B) }))
        B (baseRef A) := by
  simp only [setParentGo, hA, hp, hb]
  rfl

/-- Shape of `SetParent(nil)` when the stored parent is a base-view
reference. -/
theorem setParentGo_shape_none {t : Store} {A : Nat} {nA1 : Node} {P : InstRef}
    (hA1 : lookupN t A = some nA1) (hp : nA1.parent = some P)
    (hb : P.asBase = true) :
    setParentGo t A none =
      updateN (removeChild t P.id (baseRef A)) A
        (fun n => { n with parent := none }) := by
  simp only [setParentGo, hA1, hp, hb]
  simp

/-- C1 (amended): the claim as stated holds whenever the new parent `B`
is referenced through its `*BaseInstance` view (the form in which every
node stored in a children slice, and every plain base node, is
referenced) — for a concrete-subclass reference the child is never
appended, see the counterexample.  For distinct nodes `A ≠ B` in a
well-formed store: after `A.SetParent(B)`, `A` occurs exactly once in
`B.GetChildren()`, in no other node's children, and `A.GetParent() = B`;
after a subsequent `A.SetParent(nil)`, `A` occurs in no node's children
at all and `A.GetParent() = nil`. -/
theorem C1_setParent_base_spec (s : Store) (A B : Nat)
    (hwf : wfChildren s) (honce : wfOnce s) (hAB : A ≠ B)
    (nA : Node) (hA : lookupN s A = some nA)
    (hB : (lookupN s B).isSome) :
    cntId (childrenList (setParentGo s A (some (baseRef B))) B) A = 1 ∧
    parentOf (setParentGo s A (some (baseRef B))) A = some (baseRef B) ∧
    (∀ q, q ≠ B →
      cntId (childrenList (setParentGo s A (some (baseRef B))) q) A = 0) ∧
    parentOf (setParentGo (setParentGo s A (some (baseRef B))) A none) A = none ∧
    gone (setParentGo (setParentGo s A (some (baseRef B))) A none) A := by
  have hpA : parentOf s A = nA.parent := by
    unfold parentOf
    rw [hA]
    rfl
  obtain ⟨s1a, heq, hcnt0, hsome⟩ : ∃ s1a : Store,
      setParentGo s A (some (baseRef B)) =
        addChild (updateN s1a A (fun n => { n with parent := some (baseRef B) }))
          B (baseRef A) ∧
      (∀ q, cntId (childrenList s1a q) A = 0) ∧
      (∀ j, (lookupN s1a j).isSome = (lookupN s j).isSome) := by
    cases hp : nA.parent with
    | none =>
      refine ⟨s, setParentGo_shape_noparent B hA hp, ?_, fun j => rfl⟩
      intro q
      by_contra hne
      have hloc := occurs_located hwf hne
      rw [hpA, hp] at hloc
      cases hloc
    | some p =>
      cases hpb : p.asBase with
      | true =>
        have hpfull : p = baseRef p.id := by
          rcases p with ⟨pid, pb⟩
          cases hpb
          rfl
        refine ⟨removeChild s p.id (baseRef A),
          setParentGo_shape_rm B hA hp hpb, ?_, ?_⟩
        · intro q
          by_cases hq : q = p.id
          · subst hq
            rw [childrenList_removeChild_self]
            exact cnt_removeFirst_base (cnt_le_one honce p.id A)
              (fun r hr hid => occurs_base hwf hr hid)
          · rw [childrenList_removeChild_other _ hq]
            by_contra hne
            have hloc := occurs_located hwf hne
            rw [hpA, hp, hpfull] at hloc
            injection hloc with hloc
            exact hq (congrArg InstRef.id hloc).symm
        · intro j
          exact isSome_removeChild s p.id (baseRef A) j
      | false =>
        refine ⟨s, setParentGo_shape_nb B hA hp hpb, ?_, fun j => rfl⟩
        intro q
        by_contra hne
        have hloc := occurs_located hwf hne
        rw [hpA, hp] at hloc
        injection hloc with hloc
        have hbt : p.asBase = true := by rw [hloc]; rfl
        rw [hpb] at hbt
        cases hbt
  set fset : Node → Node := fun n => { n with parent := some (baseRef B) }
  have hsomeA : (lookupN s1a A).isSome = true := by
    rw [hsome A, hA]
    rfl
  have hsomeB2 :
      (lookupN (updateN s1a A fset) B).isSome = true := by
    rw [lookupN_updateN_isSome, hsome B, hB]
  have hchB2 : childrenList (updateN s1a A fset) B = childrenList s1a B :=
    childrenList_update_preserve fset (fun n => rfl) s1a A B
  have hs1B : childrenList (setParentGo s A (some (baseRef B))) B =
      childrenList s1a B ++ [baseRef A] := by
    rw [heq, childrenList_addChild_self _ hsomeB2, hchB2]
  have hg1 : cntId (childrenList (setParentGo s A (some (baseRef B))) B) A = 1 := by
    rw [hs1B, cntId_append, hcnt0 B]
    simp [cntId, baseRef]
  have hg2 : parentOf (setParentGo s A (some (baseRef B))) A = some (baseRef B) := by
    rw [heq, parentOf_addChild]
    exact parentOf_setField _ hsomeA
  have hg3 : ∀ q, q ≠ B →
      cntId (childrenList (setParentGo s A (some (baseRef B))) q) A = 0 := by
    intro q hq
    rw [heq, childrenList_addChild_other _ hq,
      childrenList_update_preserve fset (fun n => rfl) s1a A q]
    exact hcnt0 q
  have hsomeA1 : (lookupN (setParentGo s A (some (baseRef B))) A).isSome = true := by
    rw [heq, isSome_addChild, lookupN_updateN_isSome, hsome A, hA]
    rfl
  obtain ⟨nA1, hA1⟩ := Option.isSome_iff_exists.mp hsomeA1
  have hA1p : nA1.parent = some (baseRef B) := by
    have hpp : parentOf (setParentGo s A (some (baseRef B))) A = nA1.parent := by
      unfold parentOf
      rw [hA1]
      rfl
    rw [hg2] at hpp
    exact hpp.symm
  have heq2 : setParentGo (setParentGo s A (some (baseRef B))) A none =
      updateN (removeChild (setParentGo s A (some (baseRef B))) B (baseRef A)) A
        (fun n => { n with parent := none }) :=
    setParentGo_shape_none hA1 hA1p rfl
  have hcntB : cntId (childrenList
      (removeChild (setParentGo s A (some (baseRef B))) B (baseRef A)) B) A = 0 := by
    rw [childrenList_removeChild_self]
    refine cnt_removeFirst_base (by rw [hg1]) ?_
    intro r hr hid
    rw [hs1B] at hr
    rcases List.mem_append.mp hr with hrl | hrl
    · exfalso
      exact cntId_eq_zero_iff.mp (hcnt0 B) r hrl hid
    · simpa using hrl
  have hgone : gone (setParentGo (setParentGo s A (some (baseRef B))) A none) A := by
    intro q
    rw [heq2,
      childrenList_update_preserve (fun n => { n with parent := none })
        (fun n => rfl)]
    by_cases hq : q = B
    · subst hq
      exact hcntB
    · rw [childrenList_removeChild_other _ hq]
      exact hg3 q hq
  have hpnone : parentOf
      (setParentGo (setParentGo s A (some (baseRef B))) A none) A = none := by
    rw [heq2]
    refine parentOf_setField _ ?_
    rw [isSome_removeChild]
    exact hsomeA1
  exact ⟨hg1, hg2, hg3, hpnone, hgone⟩

/-- Witness for C1 at a concrete two-node store. -/
theorem C1_setParent_base_spec_witness :
    cntId (childrenList (setParentGo storeAB 0 (some (baseRef 1))) 1) 0 = 1 ∧
    parentOf (setParentGo storeAB 0 (some (baseRef 1))) 0 = some (baseRef 1) ∧
    (∀ q, q ≠ 1 →
      cntId (childrenList (setParentGo storeAB 0 (some (baseRef 1))) q) 0 = 0) ∧
    parentOf (setParentGo (setParentGo storeAB 0 (some (baseRef 1))) 0 none) 0 = none ∧
    gone (setParentGo (setParentGo storeAB 0 (some (baseRef 1))) 0 none) 0 :=
  C1_setParent_base_spec storeAB 0 1 (by decide) (by decide) (by decide)
    (mkBase strA strA none []) (by decide) (by decide)

/-- C3 (amended): a no-op move `A.SetParent(P)` with `P` already the
parent preserves the membership of `P`'s child list and still lists `A`
exactly once, and leaves `A`'s parent at `P` — but it does not preserve
order: the resulting list is the old list with the first occurrence of
`A` removed and `A` re-appended at the end (so order is unchanged only
when `A` was already last; see the counterexample). -/
theorem C3_noop_reparent_spec (s : Store) (A P : Nat)
    (hwf : wfChildren s) (honce : wfOnce s)
    (nA : Node) (hA : lookupN s A = some nA)
    (hparent : nA.parent = some (baseRef P))
    (hmem : baseRef A ∈ childrenList s P) :
    childrenList (setParentGo s A (some (baseRef P))) P =
      removeFirst (childrenList s P) (baseRef A) ++ [baseRef A] ∧
    (∀ r, r ∈ childrenList (setParentGo s A (some (baseRef P))) P ↔
      r ∈ childrenList s P) ∧
    cntId (childrenList (setParentGo s A (some (baseRef P))) P) A = 1 ∧
    parentOf (setParentGo s A (some (baseRef P))) A = some (baseRef P) := by
  have heq : setParentGo s A (some (baseRef P)) =
      addChild (updateN (removeChild s P (baseRef A)) A
          (fun n => { n with parent := some (baseRef P) }))
        P (baseRef A) := setParentGo_shape_rm P hA hparent rfl
  have hPsome : (lookupN s P).isSome = true := by
    cases hl : lookupN s P with
    | none => simp [childrenList, hl] at hmem
    | some n => rfl
  set fset : Node → Node := fun n => { n with parent := some (baseRef P) }
  have hsomeP2 : (lookupN (updateN (removeChild s P (baseRef A)) A fset) P).isSome
      = true := by
    rw [lookupN_updateN_isSome, isSome_removeChild, hPsome]
  have hlist : childrenList (setParentGo s A (some (baseRef P))) P =
      removeFirst (childrenList s P) (baseRef A) ++ [baseRef A] := by
    rw [heq, childrenList_addChild_self _ hsomeP2,
      childrenList_update_preserve fset (fun n => rfl),
      childrenList_removeChild_self]
  refine ⟨hlist, ?_, ?_, ?_⟩
  · intro r
    rw [hlist]
    constructor
    · intro hr
      rcases List.mem_append.mp hr with hrl | hrl
      · exact (removeFirst_sublist _ _).mem hrl
      · have : r = baseRef A := by simpa using hrl
        exact this ▸ hmem
    · intro hr
      by_cases hra : r = baseRef A
      · exact List.mem_append.mpr (Or.inr (by simp [hra]))
      · exact List.mem_append.mpr (Or.inl (mem_removeFirst_of_ne hr hra))
  · rw [hlist, cntId_append,
      cnt_removeFirst_base (cnt_le_one honce P A)
        (fun r hr hid => occurs_base hwf hr hid)]
    simp [cntId, baseRef]
  · rw [heq, parentOf_addChild]
    refine parentOf_setField _ ?_
    rw [isSome_removeChild, hA]
    rfl

/-- Witness for C3 at the concrete store `P → [A, C]`. -/
theorem C3_noop_reparent_spec_witness :
    childrenList (setParentGo storePAC 1 (some (baseRef 0))) 0 =
      removeFirst (childrenList storePAC 0) (baseRef 1) ++ [baseRef 1] ∧
    (∀ r, r ∈ childrenList (setParentGo storePAC 1 (some (baseRef 0))) 0 ↔
      r ∈ childrenList storePAC 0) ∧
    cntId (childrenList (setParentGo storePAC 1 (some (baseRef 0))) 0) 1 = 1 ∧
    parentOf (setParentGo storePAC 1 (some (baseRef 0))) 1 = some (baseRef 0) :=
  C3_noop_reparent_spec storePAC 1 0 (by decide) (by decide)
    (mkBase strA strA (some (baseRef 0)) []) (by decide) (by decide) (by decide)

/-- C4 (amended): the backfill happens only when the constructed value
passes the `inst.(*BaseInstance)` assertion.  For every registered class
whose constructor returns a plain `*BaseInstance`, `Create` yields that
node with a nil children slice backfilled to an empty non-nil one and,
provided the constructor left the class name empty or set it to the
registered name, with `className` equal to the registered name.  (A
constructor returning a concrete subclass value is returned exactly as
constructed, with nothing backfilled — see the counterexample.) -/
theorem C4_create_backfill_spec (reg : Registry) (cls : String)
    (spec : CtorSpec) (s : Store)
    (hreg : regLookup reg cls = some (some spec))
    (hbase : spec.retBase = true)
    (hcls : spec.className = emptyStr ∨ spec.className = cls)
    (hfresh : lookupN s s.nextId = none) :
    (create reg s cls).1 = some ⟨s.nextId, true⟩ ∧
    lookupN (create reg s cls).2 s.nextId =
      some ⟨spec.kind, spec.name, cls, none, some []⟩ := by
  have hrun : lookupN (runCtor s spec).2 s.nextId =
      some ⟨spec.kind, spec.name, spec.className, none,
        if spec.childrenNil then none else some []⟩ := by
    unfold runCtor lookupN
    exact (lookup_append_none hfresh).trans (by rw [lookup_cons_pair, if_pos rfl])
  refine ⟨by simp [create, hreg, runCtor, hbase], ?_⟩
  have hstep : (create reg s cls).2 = updateN (runCtor s spec).2 s.nextId
      (fun n =>
        let n1 := if n.children.isNone then { n with children := some [] } else n
        if n1.className = emptyStr then { n1 with className := cls } else n1) := by
    simp [create, hreg, runCtor, hbase]
  rw [hstep, lookupN_updateN_self _ hrun]
  congr 1
  cases hcn : spec.childrenNil with
  | true =>
    rcases hcls with h | h
    · simp [h]
    · by_cases he : cls = emptyStr
      · simp [h, he]
      · simp [h, he]
  | false =>
    rcases hcls with h | h
    · simp [h]
    · by_cases he : cls = emptyStr
      · simp [h, he]
      · simp [h, he]

/-- Witness for C4: creating `"Instance"` through the default manager's
registry on a one-node store. -/
theorem C4_create_backfill_spec_witness :
    (create defaultRegistry storeA clsInstance).1 = some ⟨1, true⟩ ∧
    lookupN (create defaultRegistry storeA clsInstance).2 1 =
      some ⟨NodeKind.base, clsInstance, clsInstance, none, some []⟩ :=
  C4_create_backfill_spec defaultRegistry clsInstance
    ⟨NodeKind.base, true, clsInstance, clsInstance, false⟩ storeA
    (by decide) (by decide) (Or.inr rfl) (by decide)

/-! ## Helper lemmas for the cloning claim -/

theorem lookup_append_some {k : Nat} {v : Node} {l1 l2 : List (Nat × Node)}
    (h : List.lookup k l1 = some v) :
    List.lookup k (l1 ++ l2) = some v := by
  induction l1 with
  | nil => simp [List.lookup] at h
  | cons e es ih =>
    rcases e with ⟨k1, v1⟩
    rw [lookup_cons_pair] at h
    rw [List.cons_append, lookup_cons_pair]
    by_cases hk : k = k1
    · rw [if_pos hk] at h
      rw [if_pos hk, h]
    · rw [if_neg hk] at h
      rw [if_neg hk]
      exact ih h

theorem updateN_fresh_append {l : List (Nat × Node)} {nx i : Nat} {n0 : Node}
    (g : Node → Node) (hfresh : ∀ e ∈ l, e.1 ≠ i) :
    updateN ⟨l ++ [(i, n0)], nx⟩ i g = ⟨l ++ [(i, g n0)], nx⟩ := by
  unfold updateN
  congr 1
  rw [List.map_append]
  congr 1
  · induction l with
    | nil => rfl
    | cons e es ih =>
      rw [List.map_cons]
      have he : e.1 ≠ i := hfresh e (List.mem_cons_self e es)
      rw [if_neg he]
      rw [ih (fun x hx => hfresh x (List.mem_cons_of_mem _ hx))]
  · simp

theorem keys_updateN (s : Store) (i : Nat) (f : Node → Node) :
    (updateN s i f).entries.map Prod.fst = s.entries.map Prod.fst := by
  unfold updateN
  rw [List.map_map]
  apply List.map_congr_left
  intro e _
  by_cases h : e.1 = i
  · simp [h]
  · simp [h]

theorem nextId_updateN (s : Store) (i : Nat) (f : Node → Node) :
    (updateN s i f).nextId = s.nextId := rfl

theorem wfKeys_updateN {s : Store} (i : Nat) (f : Node → Node)
    (h : wfKeys s) : wfKeys (updateN s i f) := by
  unfold wfKeys
  rw [keys_updateN]
  exact h

theorem wfBelow_updateN {s : Store} (i : Nat) (f : Node → Node)
    (h : wfBelow s) : wfBelow (updateN s i f) := by
  intro e he
  unfold updateN at he
  rcases List.mem_map.mp he with ⟨e0, he0, heq⟩
  have h0 := h e0 he0
  by_cases hi : e0.1 = i
  · rw [if_pos hi] at heq
    rw [← heq]
    exact h0
  · rw [if_neg hi] at heq
    rw [← heq]
    exact h0

/-- In a store with in-range keys and existing child references, every
children-slice entry's id lies below the allocation counter. -/
theorem children_lt_nextId {s : Store} (hbelow : wfBelow s)
    (hrefs : wfRefsExist s) :
    ∀ i, ∀ rr ∈ childrenList s i, rr.id < s.nextId := by
  intro i rr hrr
  cases hl : lookupN s i with
  | none => simp [childrenList, hl] at hrr
  | some n =>
    have hmem : (i, n) ∈ s.entries := lookupN_mem hl
    have hrr2 : rr ∈ n.children.getD [] := by
      simpa [childrenList, hl] using hrr
    have hsome := hrefs (i, n) hmem rr hrr2
    rcases Option.isSome_iff_exists.mp hsome with ⟨m, hm⟩
    exact hbelow (rr.id, m) (lookupN_mem hm)

theorem foldl_append_build (f : InstRef → List InstRef) :
    ∀ (l acc : List InstRef),
      l.foldl (fun a c => a ++ c :: f c) acc =
        acc ++ l.flatMap (fun c => c :: f c) := by
  intro l
  induction l with
  | nil => intro acc; simp
  | cons x xs ih =>
    intro acc
    rw [List.foldl_cons, ih, List.flatMap_cons]
    simp

theorem getDescFuel_succ (fuel : Nat) (s : Store) (b : Nat) :
    getDescFuel (fuel + 1) s b =
      (childrenList s b).flatMap (fun c => c :: getDescFuel fuel s c.id) := by
  show (childrenList s b).foldl _ [] = _
  rw [foldl_append_build (fun c => getDescFuel fuel s c.id)]
  rfl

/-- Descendants of a node at or above `lo`, in a store whose nodes at or
above `lo` have children above `lo`, stay above `lo`. -/
theorem desc_ge (lo : Nat) :
    ∀ (fuel : Nat) (t : Store) (x : Nat),
      (∀ i, lo ≤ i → ∀ rr ∈ childrenList t i, lo < rr.id) →
      lo ≤ x → ∀ y ∈ descIds fuel t x, lo < y := by
  intro fuel
  induction fuel with
  | zero => intro t x _ _ y hy; simp [descIds, getDescFuel] at hy
  | succ fuel ih =>
    intro t x hcl hx y hy
    rw [descIds, getDescFuel_succ, List.map_flatMap] at hy
    rcases List.mem_flatMap.mp hy with ⟨c, hc, hyc⟩
    have hcgt : lo < c.id := hcl x hx c hc
    rcases (by simpa using hyc :
        y = c.id ∨ ∃ a ∈ getDescFuel fuel t c.id, a.id = y) with h | ⟨a, ha, hay⟩
    · omega
    · refine ih t c.id hcl (by omega) y ?_
      exact List.mem_map.mpr ⟨a, ha, hay⟩

/-- Descendants in a store whose children-slice ids all lie below `n0`
lie below `n0`. -/
theorem desc_lt (n0 : Nat) :
    ∀ (fuel : Nat) (s : Store) (x : Nat),
      (∀ i, ∀ rr ∈ childrenList s i, rr.id < n0) →
      ∀ y ∈ descIds fuel s x, y < n0 := by
  intro fuel
  induction fuel with
  | zero => intro s x _ y hy; simp [descIds, getDescFuel] at hy
  | succ fuel ih =>
    intro s x hcl y hy
    rw [descIds, getDescFuel_succ, List.map_flatMap] at hy
    rcases List.mem_flatMap.mp hy with ⟨c, hc, hyc⟩
    rcases (by simpa using hyc :
        y = c.id ∨ ∃ a ∈ getDescFuel fuel s c.id, a.id = y) with h | ⟨a, ha, hay⟩
    · exact h ▸ hcl x c hc
    · exact ih s c.id hcl y (List.mem_map.mpr ⟨a, ha, hay⟩)

/-- Shape extraction only reads names, class tags and children slices:
two stores agreeing on those for every id in `[lo, hi)`, with children
closed in that range, give the same shapes there. -/
theorem shape_agree_seg (lo hi : Nat) :
    ∀ (fuel : Nat) (u v : Store) (x : Nat),
      (∀ i, lo ≤ i → i < hi →
        nameOf v i = nameOf u i ∧ classOf v i = classOf u i ∧
        childrenList v i = childrenList u i) →
      (∀ i, lo ≤ i → i < hi →
        ∀ rr ∈ childrenList u i, lo ≤ rr.id ∧ rr.id < hi) →
      lo ≤ x → x < hi → shapeFuel fuel v x = shapeFuel fuel u x := by
  intro fuel
  induction fuel with
  | zero => intro u v x _ _ _ _; rfl
  | succ fuel ih =>
    intro u v x hagree hcl hlo hhi
    obtain ⟨hn, hc, hch⟩ := hagree x hlo hhi
    show ShapeT.node _ _ _ = ShapeT.node _ _ _
    rw [hn, hc, hch]
    congr 1
    apply List.map_congr_left
    intro c hcmem
    obtain ⟨h1, h2⟩ := hcl x hlo hhi c hcmem
    exact ih u v c.id hagree hcl h1 h2

theorem flatMap_congr_left {α β : Type} {l : List α} {f g : α → List β}
    (h : ∀ a ∈ l, f a = g a) : l.flatMap f = l.flatMap g := by
  induction l with
  | nil => rfl
  | cons a as ih =>
    rw [List.flatMap_cons, List.flatMap_cons, h a (List.mem_cons_self a as),
      ih (fun x hx => h x (List.mem_cons_of_mem _ hx))]

/-- Like `shape_agree_seg` but for the descendant listing. -/
theorem desc_agree_seg (lo hi : Nat) :
    ∀ (fuel : Nat) (u v : Store) (x : Nat),
      (∀ i, lo ≤ i → i < hi → childrenList v i = childrenList u i) →
      (∀ i, lo ≤ i → i < hi →
        ∀ rr ∈ childrenList u i, lo ≤ rr.id ∧ rr.id < hi) →
      lo ≤ x → x < hi → getDescFuel fuel v x = getDescFuel fuel u x := by
  intro fuel
  induction fuel with
  | zero => intro u v x _ _ _ _; rfl
  | succ fuel ih =>
    intro u v x hagree hcl hlo hhi
    rw [getDescFuel_succ, getDescFuel_succ, hagree x hlo hhi]
    apply flatMap_congr_left
    intro c hcmem
    obtain ⟨h1, h2⟩ := hcl x hlo hhi c hcmem
    rw [ih u v c.id hagree hcl h1 h2]

theorem lookup_none_of_forall {k : Nat} {l : List (Nat × Node)}
    (h : ∀ e ∈ l, e.1 ≠ k) : List.lookup k l = none := by
  induction l with
  | nil => rfl
  | cons e es ih =>
    rcases e with ⟨k1, v1⟩
    rw [lookup_cons_pair]
    have h1 : k ≠ k1 := fun hk => h (k1, v1) (List.mem_cons_self _ _) hk.symm
    rw [if_neg h1]
    exact ih (fun x hx => h x (List.mem_cons_of_mem _ hx))

/-- One unfolding of `Clone`: allocate the copy (through the default
manager for class `"Instance"`, through the `NewBaseInstance` fallback
otherwise — either way a fresh base node carrying the source's class),
rename it to the source's name, and fold the child-cloning loop over the
source's children. -/
theorem clone_head (fuel : Nat) {s : Store} {b : Nat} {nb : Node}
    (hbelow : wfBelow s) (hA : lookupN s b = some nb) :
    cloneFuel (fuel + 1) s b =
      (some (baseRef s.nextId),
       (childrenList s b).foldl
         (cloneStep fuel s.nextId)
         ⟨s.entries ++
            [(s.nextId, ⟨NodeKind.base, nb.name, nb.className, none, some []⟩)],
          s.nextId + 1⟩) := by
  have hfresh : ∀ e ∈ s.entries, e.1 ≠ s.nextId :=
    fun e he => Nat.ne_of_lt (hbelow e he)
  by_cases hcls : nb.className = clsInstance
  · have hreg : regLookup defaultRegistry nb.className =
        some (some ⟨NodeKind.base, true, clsInstance, clsInstance, false⟩) := by
      rw [hcls]
      rfl
    have hcr : create defaultRegistry s nb.className =
        (some (baseRef s.nextId),
         ⟨s.entries ++ [(s.nextId,
            ⟨NodeKind.base, clsInstance, clsInstance, none, some []⟩)],
          s.nextId + 1⟩) := by
      simp only [create, hreg, runCtor]
      rw [if_pos trivial]
      rw [updateN_fresh_append _ hfresh]
      simp [clsInstance, emptyStr, baseRef]
    have hnm : nameOf (⟨s.entries ++ [(s.nextId,
        ⟨NodeKind.base, clsInstance, clsInstance, none, some []⟩)],
          s.nextId + 1⟩ : Store) b = nb.name := by
      unfold nameOf lookupN
      rw [lookup_append_some hA]
    simp only [cloneFuel, hA, hcr, hnm]
    rw [show setNameGo (⟨s.entries ++ [(s.nextId,
        ⟨NodeKind.base, clsInstance, clsInstance, none, some []⟩)],
          s.nextId + 1⟩ : Store) (baseRef s.nextId).id nb.name =
        ⟨s.entries ++ [(s.nextId,
          ⟨NodeKind.base, nb.name, clsInstance, none, some []⟩)],
          s.nextId + 1⟩ from by
      unfold setNameGo
      exact updateN_fresh_append _ hfresh]
    rw [show childrenList (⟨s.entries ++ [(s.nextId,
        ⟨NodeKind.base, nb.name, clsInstance, none, some []⟩)],
          s.nextId + 1⟩ : Store) b = childrenList s b from by
      unfold childrenList lookupN
      rw [lookup_append_some hA]
      rw [show List.lookup b s.entries = some nb from hA]]
    rw [hcls]
    rfl
  · have hreg : regLookup defaultRegistry nb.className = none := by
      unfold regLookup defaultRegistry
      rw [lookup_cons_str]
      rw [if_neg hcls]
      rfl
    have hcr : create defaultRegistry s nb.className = (none, s) := by
      simp only [create, hreg]
    have hnm : nameOf (⟨s.entries ++ [(s.nextId,
        ⟨NodeKind.base, nb.className, nb.className, none, some []⟩)],
          s.nextId + 1⟩ : Store) b = nb.name := by
      unfold nameOf lookupN
      rw [lookup_append_some hA]
    simp only [cloneFuel, hA, hcr, runCtor, Bool.false_eq_true, if_false, hnm]
    rw [show setNameGo (⟨s.entries ++ [(s.nextId,
        ⟨NodeKind.base, nb.className, nb.className, none, some []⟩)],
          s.nextId + 1⟩ : Store) s.nextId nb.name =
        ⟨s.entries ++ [(s.nextId,
          ⟨NodeKind.base, nb.name, nb.className, none, some []⟩)],
          s.nextId + 1⟩ from by
      unfold setNameGo
      exact updateN_fresh_append _ hfresh]
    rw [show childrenList (⟨s.entries ++ [(s.nextId,
        ⟨NodeKind.base, nb.name, nb.className, none, some []⟩)],
          s.nextId + 1⟩ : Store) b = childrenList s b from by
      unfold childrenList lookupN
      rw [lookup_append_some hA]
      rw [show List.lookup b s.entries = some nb from hA]]
    rfl

theorem lookup_of_mem_nodup :
    ∀ {l : List (Nat × Node)}, (l.map Prod.fst).Nodup →
      ∀ {i : Nat} {n : Node}, (i, n) ∈ l → List.lookup i l = some n := by
  intro l
  induction l with
  | nil => intro _ i n h; cases h
  | cons e es ih =>
    intro hnd i n h
    rcases e with ⟨k1, v1⟩
    rw [List.map_cons, List.nodup_cons] at hnd
    rcases List.mem_cons.mp h with hh | hh
    · injection hh with h1 h2
      subst h1
      subst h2
      rw [lookup_cons_pair, if_pos rfl]
    · have hne : i ≠ k1 := by
        intro hik
        subst hik
        exact hnd.1 (List.mem_map.mpr ⟨(i, n), hh, rfl⟩)
      rw [lookup_cons_pair, if_neg hne]
      exact ih hnd.2 hh

theorem wfRefsExist_iff {s : Store} (hkeys : wfKeys s) :
    wfRefsExist s ↔ ∀ i, ∀ rr ∈ childrenList s i, (lookupN s rr.id).isSome := by
  constructor
  · intro h i rr hrr
    cases hl : lookupN s i with
    | none => simp [childrenList, hl] at hrr
    | some n =>
      exact h (i, n) (lookupN_mem hl) rr (by simpa [childrenList, hl] using hrr)
  · intro h e he rr hrr
    have hl : lookupN s e.1 = some e.2 := lookup_of_mem_nodup hkeys (by
      rcases e with ⟨i, n⟩
      exact he)
    exact h e.1 rr (by simpa [childrenList, hl] using hrr)

theorem RKbelow_iff {s : Store} {rk : Nat → Nat} {n0 : Nat} (hkeys : wfKeys s) :
    RKbelow s rk n0 ↔
      ∀ i, i < n0 → ∀ rr ∈ childrenList s i, rk i < rk rr.id ∧ rr.id < n0 := by
  constructor
  · intro h i hi rr hrr
    cases hl : lookupN s i with
    | none => simp [childrenList, hl] at hrr
    | some n =>
      exact h (i, n) (lookupN_mem hl) hi rr (by simpa [childrenList, hl] using hrr)
  · intro h e he hi rr hrr
    have hl : lookupN s e.1 = some e.2 := lookup_of_mem_nodup hkeys (by
      rcases e with ⟨i, n⟩
      exact he)
    exact h e.1 hi rr (by simpa [childrenList, hl] using hrr)

theorem wfKeys_append_fresh {s : Store} (hkeys : wfKeys s) (hbelow : wfBelow s)
    (nd : Node) (nx : Nat) :
    wfKeys ⟨s.entries ++ [(s.nextId, nd)], nx⟩ := by
  unfold wfKeys
  rw [List.map_append]
  rw [List.nodup_append]
  refine ⟨hkeys, by simp, ?_⟩
  intro a ha hb
  simp at hb
  rcases List.mem_map.mp ha with ⟨e, he, heq⟩
  have := hbelow e he
  omega

theorem lookupN_append_fresh {s : Store} (nd : Node) (nx : Nat) {j : Nat}
    (hj : j ≠ s.nextId) :
    lookupN ⟨s.entries ++ [(s.nextId, nd)], nx⟩ j = lookupN s j := by
  unfold lookupN
  cases hl : List.lookup j s.entries with
  | some v => exact lookup_append_some hl
  | none =>
    rw [lookup_append_none hl, lookup_cons_pair, if_neg hj]
    rfl

theorem lookupN_ge_nextId_none {s : Store} (hbelow : wfBelow s) {j : Nat}
    (hj : s.nextId ≤ j) : lookupN s j = none := by
  cases hl : lookupN s j with
  | none => rfl
  | some n =>
    have := hbelow (j, n) (lookupN_mem hl)
    omega

theorem classOf_update_preserve (f : Node → Node)
    (hf : ∀ n, (f n).className = n.className) (s : Store) (i j : Nat) :
    classOf (updateN s i f) j = classOf s j := by
  unfold classOf
  rw [lookupN_updateN]
  by_cases h : j = i
  · rw [if_pos h]
    cases lookupN s j with
    | none => rfl
    | some n => simp [hf]
  · rw [if_neg h]

theorem cloneInv_trans {s u v : Store} {rk : Nat → Nat} {n0 : Nat}
    (h1 : CloneInv s u rk n0) (h2 : CloneInv u v rk n0) :
    CloneInv s v rk n0 := by
  obtain ⟨k1, b1, r1, rk1, n1, f1, c1⟩ := h1
  obtain ⟨k2, b2, r2, rk2, n2, f2, c2⟩ := h2
  refine ⟨k2, b2, r2, rk2, by omega, ?_, ?_⟩
  · intro i hi
    rw [f2 i (by omega), f1 i hi]
  · intro i hi rr hrr
    by_cases hiu : i < u.nextId
    · have hch : childrenList v i = childrenList u i := by
        unfold childrenList
        rw [f2 i hiu]
      rw [hch] at hrr
      exact c1 i hi rr hrr
    · have := c2 i (by omega) rr hrr
      omega

/-- Effect of `cc.SetParent(inst)` inside the clone loop: `A` is the
fresh clone root being attached (its parent is still nil), `s.nextId`
the id of the copy `inst`.  The invariant survives, only `inst`'s
children slice changes (gaining `A` at the end), and nothing else is
touched. -/
theorem clone_attach_step {s u1 : Store} {rk : Nat → Nat} {n0 : Nat} {A : Nat}
    (hinv : CloneInv s u1 rk n0) (hn0s : n0 ≤ s.nextId)
    (hA1 : s.nextId < A)
    {ncl : Node} (hncl : lookupN u1 A = some ncl) (hnclp : ncl.parent = none)
    {nroot : Node} (hroot : lookupN u1 s.nextId = some nroot) :
    (setParentGo u1 A (some (baseRef s.nextId))).nextId = u1.nextId ∧
    (∀ i, nameOf (setParentGo u1 A (some (baseRef s.nextId))) i = nameOf u1 i ∧
      classOf (setParentGo u1 A (some (baseRef s.nextId))) i = classOf u1 i) ∧
    (∀ i, i ≠ s.nextId →
      childrenList (setParentGo u1 A (some (baseRef s.nextId))) i =
        childrenList u1 i) ∧
    lookupN (setParentGo u1 A (some (baseRef s.nextId))) s.nextId =
      some { nroot with children := some (nroot.children.getD [] ++ [baseRef A]) } ∧
    (∀ i, (lookupN (setParentGo u1 A (some (baseRef s.nextId))) i).isSome =
      (lookupN u1 i).isSome) ∧
    CloneInv s (setParentGo u1 A (some (baseRef s.nextId))) rk n0 := by
  obtain ⟨hk1, hb1, hr1, hrk1, hn1, hf1, hc1⟩ := hinv
  have hne : A ≠ s.nextId := by omega
  set fset : Node → Node := fun n => { n with parent := some (baseRef s.nextId) }
  have heq : setParentGo u1 A (some (baseRef s.nextId)) =
      addChild (updateN u1 A fset) s.nextId (baseRef A) :=
    setParentGo_shape_noparent s.nextId hncl hnclp
  have hlookroot : lookupN (updateN u1 A fset) s.nextId = some nroot := by
    rw [lookupN_updateN_other fset (fun h => hne h.symm), hroot]
  have hnames : ∀ i, nameOf (setParentGo u1 A (some (baseRef s.nextId))) i =
      nameOf u1 i ∧
      classOf (setParentGo u1 A (some (baseRef s.nextId))) i = classOf u1 i := by
    intro i
    rw [heq]
    constructor
    · rw [nameOf_addChild]
      exact nameOf_update_preserve fset (fun n => rfl) u1 A i
    · unfold addChild
      rw [classOf_update_preserve
        (fun n => { n with children := some (n.children.getD [] ++ [baseRef A]) })
        (fun n => rfl)]
      exact classOf_update_preserve fset (fun n => rfl) u1 A i
  have hchother : ∀ i, i ≠ s.nextId →
      childrenList (setParentGo u1 A (some (baseRef s.nextId))) i =
        childrenList u1 i := by
    intro i hi
    rw [heq, childrenList_addChild_other _ hi]
    exact childrenList_update_preserve fset (fun n => rfl) u1 A i
  have hchroot : childrenList (setParentGo u1 A (some (baseRef s.nextId)))
      s.nextId = childrenList u1 s.nextId ++ [baseRef A] := by
    rw [heq, childrenList_addChild_self _ (by rw [hlookroot]; rfl),
      childrenList_update_preserve fset (fun n => rfl)]
  have hlookroot2 : lookupN (setParentGo u1 A (some (baseRef s.nextId)))
      s.nextId =
      some { nroot with children := some (nroot.children.getD [] ++ [baseRef A]) } := by
    rw [heq]
    unfold addChild
    rw [lookupN_updateN_self _ hlookroot]
  have hsome : ∀ i, (lookupN (setParentGo u1 A (some (baseRef s.nextId))) i).isSome
      = (lookupN u1 i).isSome := by
    intro i
    rw [heq, isSome_addChild, lookupN_updateN_isSome]
  have hnx : (setParentGo u1 A (some (baseRef s.nextId))).nextId = u1.nextId := by
    rw [heq]
    rfl
  have hkeys2 : wfKeys (setParentGo u1 A (some (baseRef s.nextId))) := by
    unfold wfKeys
    rw [heq]
    unfold addChild
    rw [keys_updateN, keys_updateN]
    exact hk1
  have hbelow2 : wfBelow (setParentGo u1 A (some (baseRef s.nextId))) := by
    rw [heq]
    unfold addChild
    exact wfBelow_updateN _ _ (wfBelow_updateN _ _ hb1)
  have hrefs2 : wfRefsExist (setParentGo u1 A (some (baseRef s.nextId))) := by
    rw [wfRefsExist_iff hkeys2]
    intro i rr hrr
    rw [hsome rr.id]
    by_cases hi : i = s.nextId
    · subst hi
      rw [hchroot] at hrr
      rcases List.mem_append.mp hrr with hrl | hrl
      · exact (wfRefsExist_iff hk1).mp hr1 s.nextId rr hrl
      · have hrrA : rr.id = A := by
          have hb : rr = baseRef A := by simpa using hrl
          rw [hb]
          rfl
        rw [hrrA, hncl]
        rfl
    · rw [hchother i hi] at hrr
      exact (wfRefsExist_iff hk1).mp hr1 i rr hrr
  have hrk2 : RKbelow (setParentGo u1 A (some (baseRef s.nextId))) rk n0 := by
    rw [RKbelow_iff hkeys2]
    intro i hi rr hrr
    have hine : i ≠ s.nextId := by omega
    rw [hchother i hine] at hrr
    exact (RKbelow_iff hk1).mp hrk1 i hi rr hrr
  refine ⟨hnx, hnames, hchother, hlookroot2, hsome,
    hkeys2, hbelow2, hrefs2, hrk2, by rw [hnx]; omega, ?_, ?_⟩
  · intro i hi
    rw [heq]
    unfold addChild
    rw [lookupN_updateN_other _ (by omega : i ≠ s.nextId),
      lookupN_updateN_other fset (by omega : i ≠ A)]
    exact hf1 i hi
  · intro i hi rr hrr
    by_cases hieq : i = s.nextId
    · subst hieq
      rw [hchroot] at hrr
      rcases List.mem_append.mp hrr with hrl | hrl
      · exact hc1 _ hi rr hrl
      · have : rr = baseRef A := by simpa using hrl
        rw [this]
        exact hA1
    · rw [hchother i hieq] at hrr
      exact hc1 i hi rr hrr

/-- Master induction for `Clone`: cloning an original node (id below
`n0`) of a well-formed ranked store with enough fuel returns the fresh
base-view root allocated at the original allocation mark, preserves
everything below the mark, keeps the store well-formed, leaves the clone
root unparented, and reproduces the source subtree's shape. -/
theorem cloneAux (rk : Nat → Nat) (n0 bound : Nat)
    (hrkbound : ∀ i, i < n0 → rk i < bound) :
    ∀ (fuel : Nat) (s : Store) (b : Nat),
      wfKeys s → wfBelow s → wfRefsExist s → n0 ≤ s.nextId →
      RKbelow s rk n0 → b < n0 → (lookupN s b).isSome →
      bound ≤ fuel + rk b →
      ∃ t : Store,
        cloneFuel fuel s b = (some (baseRef s.nextId), t) ∧
        CloneInv s t rk n0 ∧
        s.nextId < t.nextId ∧
        (∃ ncl : Node, lookupN t s.nextId = some ncl ∧ ncl.parent = none) ∧
        shapeFuel fuel t s.nextId = shapeFuel fuel s b := by
  intro fuel
  induction fuel with
  | zero =>
    intro s b _ _ _ _ _ hb _ hfuel
    exact absurd hfuel (by have := hrkbound b hb; omega)
  | succ fuel ih =>
    intro s b hkeys hbelow hrefs hn0 hrk hb hsb hfuel
    obtain ⟨nb, hA⟩ := Option.isSome_iff_exists.mp hsb
    have hhead := clone_head fuel hbelow hA
    have hfresh : ∀ e ∈ s.entries, e.1 ≠ s.nextId :=
      fun e he => Nat.ne_of_lt (hbelow e he)
    set s2 : Store := ⟨s.entries ++
      [(s.nextId, ⟨NodeKind.base, nb.name, nb.className, none, some []⟩)],
      s.nextId + 1⟩ with hs2
    have hk2 : wfKeys s2 :=
      wfKeys_append_fresh hkeys hbelow _ _
    have hlook2root : lookupN s2 s.nextId =
        some ⟨NodeKind.base, nb.name, nb.className, none, some []⟩ := by
      show List.lookup s.nextId (s.entries ++ _) = _
      rw [lookup_append_none (lookup_none_of_forall hfresh), lookup_cons_pair,
        if_pos rfl]
    have hframe2 : ∀ i, i < s.nextId → lookupN s2 i = lookupN s i := by
      intro i hi
      exact lookupN_append_fresh _ _ (by omega)
    have hb2 : wfBelow s2 := by
      intro e he
      rcases List.mem_append.mp he with h | h
      · have := hbelow e h
        show e.1 < s.nextId + 1
        omega
      · have he2 : e = (s.nextId, ⟨NodeKind.base, nb.name, nb.className, none, some []⟩) := by
          simpa using h
        rw [he2]
        show s.nextId < s.nextId + 1
        omega
    have hch2 : ∀ i, i ≠ s.nextId → childrenList s2 i = childrenList s i := by
      intro i hi
      unfold childrenList
      rw [lookupN_append_fresh _ _ hi]
    have hch2root : childrenList s2 s.nextId = [] := by
      unfold childrenList
      rw [hlook2root]
      rfl
    have hr2 : wfRefsExist s2 := by
      rw [wfRefsExist_iff hk2]
      intro i rr hrr
      by_cases hi : i = s.nextId
      · subst hi
        rw [hch2root] at hrr
        cases hrr
      · rw [hch2 i hi] at hrr
        have hrs := (wfRefsExist_iff hkeys).mp hrefs i rr hrr
        have hlt : rr.id < s.nextId := children_lt_nextId hbelow hrefs i rr hrr
        rw [lookupN_append_fresh _ _ (by omega)]
        exact hrs
    have hrk2 : RKbelow s2 rk n0 := by
      rw [RKbelow_iff hk2]
      intro i hi rr hrr
      have hi2 : i ≠ s.nextId := by omega
      rw [hch2 i hi2] at hrr
      exact (RKbelow_iff hkeys).mp hrk i hi rr hrr
    have hc62 : ∀ i, s.nextId ≤ i → ∀ rr ∈ childrenList s2 i, s.nextId < rr.id := by
      intro i hi rr hrr
      by_cases hieq : i = s.nextId
      · subst hieq
        rw [hch2root] at hrr
        cases hrr
      · have hge : s2.nextId ≤ i := by
          show s.nextId + 1 ≤ i
          omega
        rw [show childrenList s2 i = [] from by
          unfold childrenList
          rw [lookupN_ge_nextId_none hb2 hge]] at hrr
        cases hrr
    have hinv2 : CloneInv s s2 rk n0 :=
      ⟨hk2, hb2, hr2, hrk2, by show s.nextId ≤ s.nextId + 1; omega, hframe2, hc62⟩
    have hkidsprop : ∀ c ∈ childrenList s b,
        rk b < rk c.id ∧ c.id < n0 ∧ (lookupN s c.id).isSome := by
      intro c hc
      have h1 := (RKbelow_iff hkeys).mp hrk b hb c hc
      exact ⟨h1.1, h1.2, (wfRefsExist_iff hkeys).mp hrefs b c hc⟩
    have hfold : ∀ rem : List InstRef,
        (∀ c ∈ rem, rk b < rk c.id ∧ c.id < n0 ∧ (lookupN s c.id).isSome) →
        ∀ (u : Store) (ms : List ShapeT),
        CloneInv s u rk n0 → s.nextId < u.nextId →
        (∃ ccs : List InstRef,
          lookupN u s.nextId =
            some ⟨NodeKind.base, nb.name, nb.className, none, some ccs⟩ ∧
          ccs.map (fun cc => shapeFuel fuel u cc.id) = ms ∧
          ∀ cc ∈ ccs, s.nextId < cc.id ∧ cc.id < u.nextId) →
        CloneInv s (rem.foldl (cloneStep fuel s.nextId) u) rk n0 ∧
        s.nextId < (rem.foldl (cloneStep fuel s.nextId) u).nextId ∧
        (∃ ccs : List InstRef,
          lookupN (rem.foldl (cloneStep fuel s.nextId) u) s.nextId =
            some ⟨NodeKind.base, nb.name, nb.className, none, some ccs⟩ ∧
          ccs.map (fun cc => shapeFuel fuel (rem.foldl (cloneStep fuel s.nextId) u) cc.id) =
            ms ++ rem.map (fun c => shapeFuel fuel s c.id) ∧
          ∀ cc ∈ ccs, s.nextId < cc.id ∧
            cc.id < (rem.foldl (cloneStep fuel s.nextId) u).nextId) := by
      intro rem
      induction rem with
      | nil =>
        intro _ u ms hinv hlt hccs
        obtain ⟨ccs, h1, h2, h3⟩ := hccs
        exact ⟨hinv, hlt, ccs, h1, by simpa using h2, h3⟩
      | cons c rem ihrem =>
        intro hprops u ms hinv hlt hccs
        obtain ⟨ccs, hccs1, hccs2, hccs3⟩ := hccs
        obtain ⟨hrkc, hcn0, hcs⟩ := hprops c (List.mem_cons_self c rem)
        obtain ⟨hk_u, hb_u, hr_u, hrk_u, hsle, hfr_u, hc6_u⟩ := hinv
        have hinv0 : CloneInv s u rk n0 :=
          ⟨hk_u, hb_u, hr_u, hrk_u, hsle, hfr_u, hc6_u⟩
        have hlook_c : lookupN u c.id = lookupN s c.id :=
          hfr_u c.id (by omega)
        obtain ⟨u1, hequ1, hinvU, hltU, ⟨ncl, hncl, hnclp⟩, hshU⟩ :=
          ih u c.id hk_u hb_u hr_u (by omega) hrk_u hcn0
            (by rw [hlook_c]; exact hcs) (by omega)
        obtain ⟨hk_u1, hb_u1, hr_u1, hrk_u1, hsle1, hfr_u1, hc6_u1⟩ := hinvU
        have hinvU0 : CloneInv u u1 rk n0 :=
          ⟨hk_u1, hb_u1, hr_u1, hrk_u1, hsle1, hfr_u1, hc6_u1⟩
        have hroot_u1 : lookupN u1 s.nextId =
            some ⟨NodeKind.base, nb.name, nb.className, none, some ccs⟩ := by
          rw [hfr_u1 s.nextId (by omega)]
          exact hccs1
        have hstep := clone_attach_step (A := (baseRef u.nextId).id)
          (cloneInv_trans hinv0 hinvU0) hn0
          (by exact hlt) (by exact hncl) (by exact hnclp) hroot_u1
        obtain ⟨hnx2, hnames2, hchoth2, hlookroot2, hsome2, hinv22⟩ := hstep
        have hstepu : (c :: rem).foldl (cloneStep fuel s.nextId) u =
            rem.foldl (cloneStep fuel s.nextId)
              (setParentGo u1 (baseRef u.nextId).id (some (baseRef s.nextId))) := by
          rw [List.foldl_cons,
            show cloneStep fuel s.nextId u c =
              setParentGo u1 (baseRef u.nextId).id (some (baseRef s.nextId)) from by
            simp only [cloneStep, hequ1]]
        set u2 : Store :=
          setParentGo u1 (baseRef u.nextId).id (some (baseRef s.nextId)) with hu2
        have hu2nx : u2.nextId = u1.nextId := hnx2
        have hagree_u_u1 : ∀ i, 0 ≤ i → i < u.nextId →
            nameOf u1 i = nameOf u i ∧ classOf u1 i = classOf u i ∧
            childrenList u1 i = childrenList u i := by
          intro i _ hi
          have hl := hfr_u1 i hi
          unfold nameOf classOf childrenList
          rw [hl]
          exact ⟨rfl, rfl, rfl⟩
        have hclose_u : ∀ i, 0 ≤ i → i < u.nextId →
            ∀ rr ∈ childrenList u i, 0 ≤ rr.id ∧ rr.id < u.nextId := by
          intro i _ hi rr hrr
          exact ⟨Nat.zero_le _, children_lt_nextId hb_u hr_u i rr hrr⟩
        have hagree_u1_u2 : ∀ i, s.nextId + 1 ≤ i → i < u1.nextId →
            nameOf u2 i = nameOf u1 i ∧ classOf u2 i = classOf u1 i ∧
            childrenList u2 i = childrenList u1 i := by
          intro i hi _
          exact ⟨(hnames2 i).1, (hnames2 i).2, hchoth2 i (by omega)⟩
        have hclose_u1 : ∀ i, s.nextId + 1 ≤ i → i < u1.nextId →
            ∀ rr ∈ childrenList u1 i, s.nextId + 1 ≤ rr.id ∧ rr.id < u1.nextId := by
          intro i hi _ rr hrr
          have h1 := hinv22.2.2.2.2.2.2
          have h2 := hc6_u1
          constructor
          · have := (cloneInv_trans hinv0 hinvU0).2.2.2.2.2.2 i (by omega) rr hrr
            omega
          · exact children_lt_nextId hb_u1 hr_u1 i rr hrr
        have hshape_old : ∀ cc ∈ ccs,
            shapeFuel fuel u2 cc.id = shapeFuel fuel u cc.id := by
          intro cc hcc
          obtain ⟨hcc1, hcc2⟩ := hccs3 cc hcc
          have hstep1 : shapeFuel fuel u1 cc.id = shapeFuel fuel u cc.id :=
            shape_agree_seg 0 u.nextId fuel u u1 cc.id hagree_u_u1 hclose_u
              (Nat.zero_le _) hcc2
          have hstep2 : shapeFuel fuel u2 cc.id = shapeFuel fuel u1 cc.id :=
            shape_agree_seg (s.nextId + 1) u1.nextId fuel u1 u2 cc.id
              hagree_u1_u2 hclose_u1 (by omega) (by omega)
          rw [hstep2, hstep1]
        have hshape_new :
            shapeFuel fuel u2 u.nextId = shapeFuel fuel s c.id := by
          have hstep2 : shapeFuel fuel u2 u.nextId = shapeFuel fuel u1 u.nextId :=
            shape_agree_seg (s.nextId + 1) u1.nextId fuel u1 u2 u.nextId
              hagree_u1_u2 hclose_u1 (by omega) (by omega)
          have hagree_s_u : ∀ i, 0 ≤ i → i < s.nextId →
              nameOf u i = nameOf s i ∧ classOf u i = classOf s i ∧
              childrenList u i = childrenList s i := by
            intro i _ hi
            have hl := hfr_u i hi
            unfold nameOf classOf childrenList
            rw [hl]
            exact ⟨rfl, rfl, rfl⟩
          have hclose_s : ∀ i, 0 ≤ i → i < s.nextId →
              ∀ rr ∈ childrenList s i, 0 ≤ rr.id ∧ rr.id < s.nextId := by
            intro i _ hi rr hrr
            exact ⟨Nat.zero_le _, children_lt_nextId hbelow hrefs i rr hrr⟩
          have hstep3 : shapeFuel fuel u c.id = shapeFuel fuel s c.id :=
            shape_agree_seg 0 s.nextId fuel s u c.id hagree_s_u hclose_s
              (Nat.zero_le _) (by omega)
          rw [hstep2, hshU, hstep3]
        have hccsnew :
            lookupN u2 s.nextId = some ⟨NodeKind.base, nb.name, nb.className,
              none, some (ccs ++ [baseRef u.nextId])⟩ := by
          rw [hlookroot2]
          rfl
        have hmapnew : (ccs ++ [baseRef u.nextId]).map
            (fun cc => shapeFuel fuel u2 cc.id) =
            ms ++ [shapeFuel fuel s c.id] := by
          rw [List.map_append]
          congr 1
          · rw [List.map_congr_left hshape_old, hccs2]
          · show [shapeFuel fuel u2 (baseRef u.nextId).id] = _
            rw [show (baseRef u.nextId).id = u.nextId from rfl, hshape_new]
        have hrangenew : ∀ cc ∈ ccs ++ [baseRef u.nextId],
            s.nextId < cc.id ∧ cc.id < u2.nextId := by
          intro cc hcc
          rcases List.mem_append.mp hcc with h | h
          · obtain ⟨h1, h2⟩ := hccs3 cc h
            refine ⟨h1, ?_⟩
            rw [hu2nx]
            omega
          · have hcb : cc = baseRef u.nextId := by simpa using h
            subst hcb
            constructor
            · show s.nextId < u.nextId
              omega
            · show u.nextId < u2.nextId
              rw [hu2nx]
              omega
        have hrec := ihrem (fun x hx => hprops x (List.mem_cons_of_mem _ hx))
          u2 (ms ++ [shapeFuel fuel s c.id])
          hinv22 (by rw [hu2nx]; omega)
          ⟨ccs ++ [baseRef u.nextId], hccsnew, hmapnew, hrangenew⟩
        rw [hstepu]
        refine ⟨hrec.1, hrec.2.1, ?_⟩
        obtain ⟨ccs2, hx1, hx2, hx3⟩ := hrec.2.2
        refine ⟨ccs2, hx1, ?_, hx3⟩
        rw [hx2]
        simp
    have hres := hfold (childrenList s b) hkidsprop s2 []
      hinv2 (by show s.nextId < s.nextId + 1; omega)
      ⟨[], hlook2root, rfl, by intro cc hcc; cases hcc⟩
    obtain ⟨hinvT, hltT, ccsT, hlookT, hmapT, hrangeT⟩ := hres
    refine ⟨(childrenList s b).foldl (cloneStep fuel s.nextId) s2, ?_, hinvT, hltT,
      ⟨_, hlookT, rfl⟩, ?_⟩
    · exact hhead
    · show ShapeT.node _ _ _ = shapeFuel (fuel + 1) s b
      have hnmT : nameOf ((childrenList s b).foldl (cloneStep fuel s.nextId) s2) s.nextId = nb.name := by
        unfold nameOf
        rw [hlookT]
      have hclT : classOf ((childrenList s b).foldl (cloneStep fuel s.nextId) s2) s.nextId =
          nb.className := by
        unfold classOf
        rw [hlookT]
      have hchT : childrenList ((childrenList s b).foldl (cloneStep fuel s.nextId) s2) s.nextId =
          ccsT := by
        show (match lookupN ((childrenList s b).foldl (cloneStep fuel s.nextId) s2)
            s.nextId with
          | some n => n.children.getD []
          | none => []) = ccsT
        rw [hlookT]
        rfl
      have hsrc : shapeFuel (fuel + 1) s b =
          ShapeT.node nb.name nb.className
            ((childrenList s b).map (fun c => shapeFuel fuel s c.id)) := by
        show ShapeT.node _ _ _ = _
        unfold nameOf classOf
        rw [hA]
      rw [hsrc, hnmT, hclT, hchT]
      have hmap2 : ccsT.map (fun cc => shapeFuel fuel
          ((childrenList s b).foldl (cloneStep fuel s.nextId) s2) cc.id) =
          (childrenList s b).map (fun c => shapeFuel fuel s c.id) := by
        simpa using hmapT
      rw [hmap2]

/-- C7: `Clone` produces a structurally isomorphic subtree — same shape,
same class tags, same names (`shapeFuel` equality) — in which every node
is a fresh allocation: all ids of the clone subtree are at or above the
pre-call allocation mark while all ids of the source subtree are below
it, so the two node sets are disjoint (distinct identities); and the
source store below the mark is untouched.  The fuel/rank hypotheses say
the child graph is acyclic and the recursion is run to completion, the
implicit precondition of the recursive Go code. -/
theorem C7_clone_iso (s : Store) (b : Nat) (rk : Nat → Nat) (bound fuel : Nat)
    (hkeys : wfKeys s) (hbelow : wfBelow s) (hrefs : wfRefsExist s)
    (hrkb : RKbelow s rk s.nextId)
    (hrkbound : ∀ i, i < s.nextId → rk i < bound)
    (hb : (lookupN s b).isSome)
    (hfuel : bound ≤ fuel + rk b) :
    ∃ t : Store,
      cloneFuel fuel s b = (some (baseRef s.nextId), t) ∧
      shapeFuel fuel t s.nextId = shapeFuel fuel s b ∧
      (∀ y, y ∈ s.nextId :: descIds fuel t s.nextId → s.nextId ≤ y) ∧
      (∀ y, y ∈ b :: descIds fuel s b → y < s.nextId) ∧
      (∀ i, i < s.nextId → lookupN t i = lookupN s i) := by
  have hbn0 : b < s.nextId := by
    rcases Option.isSome_iff_exists.mp hb with ⟨n, hn⟩
    exact hbelow (b, n) (lookupN_mem hn)
  obtain ⟨t, h1, hinv, hlt, hncl, hsh⟩ :=
    cloneAux rk s.nextId bound hrkbound fuel s b hkeys hbelow hrefs
      (le_refl _) hrkb hbn0 hb hfuel
  obtain ⟨hk, hbw, hrf, hrkT, hle, hfr, hc6⟩ := hinv
  refine ⟨t, h1, hsh, ?_, ?_, hfr⟩
  · intro y hy
    rcases List.mem_cons.mp hy with h | h
    · omega
    · have := desc_ge s.nextId fuel t s.nextId hc6 (le_refl _) y h
      omega
  · intro y hy
    rcases List.mem_cons.mp hy with h | h
    · omega
    · exact desc_lt s.nextId fuel s b (children_lt_nextId hbelow hrefs) y h

/-- Witness for C7: cloning the root of the three-node tree
`Root → A → B`. -/
theorem C7_clone_iso_witness :
    ∃ t : Store,
      cloneFuel 3 storeRootAB 0 = (some (baseRef storeRootAB.nextId), t) ∧
      shapeFuel 3 t storeRootAB.nextId = shapeFuel 3 storeRootAB 0 ∧
      (∀ y, y ∈ storeRootAB.nextId :: descIds 3 t storeRootAB.nextId →
        storeRootAB.nextId ≤ y) ∧
      (∀ y, y ∈ 0 :: descIds 3 storeRootAB 0 → y < storeRootAB.nextId) ∧
      (∀ i, i < storeRootAB.nextId → lookupN t i = lookupN storeRootAB i) :=
  C7_clone_iso storeRootAB 0 (fun i => i) 3 3 (by decide) (by decide)
    (by decide) (by decide) (fun i hi => hi) (by decide) (by decide)

/-! ## Helper lemmas: reachability along children slices (for `Destroy`) -/

theorem chain_mono {s u : Store}
    (hsub : ∀ p, List.Sublist (childrenList u p) (childrenList s p)) :
    ∀ {a y : Nat}, Chain u a y → Chain s a y := by
  intro a y h
  induction h with
  | refl => exact Chain.refl _
  | step h hm ih => exact Chain.step ih ((hsub _).subset hm)

theorem chain_trans {s : Store} {b y : Nat} (h2 : Chain s b y) :
    ∀ {a : Nat}, Chain s a b → Chain s a y := by
  induction h2 with
  | refl => intro a h1; exact h1
  | step h hm ih => intro a h1; exact Chain.step (ih h1) hm

theorem chain_inv_first {s : Store} {a y : Nat} (h : Chain s a y) :
    a = y ∨ ∃ c ∈ childrenList s a, Chain s c.id y := by
  induction h with
  | refl => exact Or.inl rfl
  | step h hm ih =>
    rcases ih with heq | ⟨c, hc, hch⟩
    · subst heq
      exact Or.inr ⟨_, hm, Chain.refl _⟩
    · exact Or.inr ⟨c, hc, Chain.step hch hm⟩

theorem chain_last {s : Store} {a y : Nat} (h : Chain s a y) :
    a = y ∨ ∃ z r, Chain s a z ∧ r ∈ childrenList s z ∧ r.id = y := by
  cases h with
  | refl => exact Or.inl rfl
  | step h hm => exact Or.inr ⟨_, _, h, hm, rfl⟩

theorem desc_mem_chain :
    ∀ (fuel : Nat) (s : Store) (x y : Nat), y ∈ descIds fuel s x → Chain s x y := by
  intro fuel
  induction fuel with
  | zero => intro s x y hy; simp [descIds, getDescFuel] at hy
  | succ fuel ih =>
    intro s x y hy
    rw [descIds, getDescFuel_succ] at hy
    rcases List.mem_map.mp hy with ⟨r, hr, hid⟩
    rcases List.mem_flatMap.mp hr with ⟨c, hc, hrc⟩
    rcases List.mem_cons.mp hrc with h | h
    · subst h
      subst hid
      exact Chain.step (Chain.refl x) hc
    · have hm : y ∈ descIds fuel s c.id := List.mem_map.mpr ⟨r, h, hid⟩
      exact chain_trans (ih s c.id y hm) (Chain.step (Chain.refl x) hc)

theorem desc_occurs :
    ∀ (fuel : Nat) (t : Store) (x y : Nat), y ∈ descIds fuel t x →
      ∃ q, cntId (childrenList t q) y ≠ 0 := by
  intro fuel
  induction fuel with
  | zero => intro t x y hy; simp [descIds, getDescFuel] at hy
  | succ fuel ih =>
    intro t x y hy
    rw [descIds, getDescFuel_succ] at hy
    rcases List.mem_map.mp hy with ⟨r, hr, hid⟩
    rcases List.mem_flatMap.mp hr with ⟨c, hc, hrc⟩
    rcases List.mem_cons.mp hrc with h | h
    · subst h
      refine ⟨x, fun h0 => ?_⟩
      exact (cntId_eq_zero_iff.mp h0 r hc) hid
    · exact ih t c.id y (List.mem_map.mpr ⟨r, h, hid⟩)

theorem chain_lift {s u : Store} {a : Nat}
    (hag : ∀ p, Chain s a p → childrenList u p = childrenList s p) :
    ∀ {y : Nat}, Chain s a y → Chain u a y := by
  intro y h
  induction h with
  | refl => exact Chain.refl _
  | step h hm ih =>
    refine Chain.step ih ?_
    rw [hag _ h]
    exact hm

theorem RK_iff {s : Store} {rk : Nat → Nat} (hkeys : wfKeys s) :
    RK s rk ↔ ∀ i, ∀ rr ∈ childrenList s i, rk i < rk rr.id := by
  constructor
  · intro h i rr hrr
    cases hl : lookupN s i with
    | none => simp [childrenList, hl] at hrr
    | some n =>
      exact h (i, n) (lookupN_mem hl) rr (by simpa [childrenList, hl] using hrr)
  · intro h e he rr hrr
    have hl : lookupN s e.1 = some e.2 := lookup_of_mem_nodup hkeys (by
      rcases e with ⟨i, n⟩
      exact he)
    exact h e.1 rr (by simpa [childrenList, hl] using hrr)

theorem chain_rank_le {s : Store} {rk : Nat → Nat}
    (hrkc : ∀ i, ∀ rr ∈ childrenList s i, rk i < rk rr.id) :
    ∀ {a y : Nat}, Chain s a y → rk a ≤ rk y := by
  intro a y h
  induction h with
  | refl => exact Nat.le_refl _
  | step h hm ih => exact Nat.le_trans ih (Nat.le_of_lt (hrkc _ _ hm))

theorem no_chain_back {s : Store} {rk : Nat → Nat}
    (hrkc : ∀ i, ∀ rr ∈ childrenList s i, rk i < rk rr.id)
    {N : Nat} {c : InstRef} (hc : c ∈ childrenList s N) :
    ¬ Chain s c.id N := by
  intro h
  have h1 : rk c.id ≤ rk N := chain_rank_le hrkc h
  have h2 : rk N < rk c.id := hrkc N c hc
  omega

theorem cnt_ne_zero_of_mem {l : List InstRef} {r : InstRef} {y : Nat}
    (hr : r ∈ l) (hid : r.id = y) : cntId l y ≠ 0 := by
  intro h0
  exact cntId_eq_zero_iff.mp h0 r hr hid

theorem pred_unique {s : Store} (hwf : wfChildren s) {p q : Nat}
    {r1 r2 : InstRef} (h1 : r1 ∈ childrenList s p) (h2 : r2 ∈ childrenList s q)
    (hid : r1.id = r2.id) : p = q := by
  have hp := occurs_located hwf (cnt_ne_zero_of_mem h1 rfl)
  have hq := occurs_located hwf (cnt_ne_zero_of_mem h2 rfl)
  rw [hid] at hp
  rw [hp] at hq
  injection hq with h
  exact congrArg InstRef.id h

theorem chain_linear {s : Store} (hwf : wfChildren s) :
    ∀ {a y : Nat}, Chain s a y → ∀ {b : Nat}, Chain s b y →
      Chain s a b ∨ Chain s b a := by
  intro a y h1
  induction h1 with
  | refl =>
    intro b h2
    exact Or.inr h2
  | step h hm ih =>
    intro b h2
    rcases chain_last h2 with heq | ⟨z2, r2, h2x, hm2, hid⟩
    · subst heq
      exact Or.inl (Chain.step h hm)
    · have hz : z2 = _ := pred_unique hwf hm2 hm hid
      subst hz
      exact ih h2x

theorem sibling_not_reach {s : Store} {rk : Nat → Nat} (hwf : wfChildren s)
    (hrkc : ∀ i, ∀ rr ∈ childrenList s i, rk i < rk rr.id)
    {N : Nat} {c c2 : InstRef} (hc : c ∈ childrenList s N)
    (hc2 : c2 ∈ childrenList s N) (hne : c2.id ≠ c.id) :
    ¬ Chain s c2.id c.id := by
  intro h
  rcases chain_last h with heq | ⟨z, r, hz, hr, hid⟩
  · exact hne heq
  · have hzN : z = N := pred_unique hwf hr hc hid
    subst hzN
    exact no_chain_back hrkc hc2 hz

theorem sibling_cross {s : Store} {rk : Nat → Nat} (hwf : wfChildren s)
    (hrkc : ∀ i, ∀ rr ∈ childrenList s i, rk i < rk rr.id)
    {N : Nat} {c c2 : InstRef} (hc : c ∈ childrenList s N)
    (hc2 : c2 ∈ childrenList s N) (hne : c2.id ≠ c.id)
    {p : Nat} (h1 : Chain s c.id p) (h2 : Chain s c2.id p) : False := by
  rcases chain_linear hwf h1 h2 with h | h
  · exact sibling_not_reach hwf hrkc hc2 hc (fun he => hne he.symm) h
  · exact sibling_not_reach hwf hrkc hc hc2 hne h

theorem occurs_some {s : Store} (hwf : wfChildren s) {q y : Nat}
    (h : cntId (childrenList s q) y ≠ 0) : (lookupN s y).isSome := by
  have hpos : 0 < (childrenList s q).countP (fun r => r.id == y) :=
    Nat.pos_of_ne_zero h
  rcases List.countP_pos_iff.mp hpos with ⟨r, hrmem, hrid⟩
  have hrid : r.id = y := by simpa using hrid
  cases hl : lookupN s q with
  | none => simp [childrenList, hl] at hrmem
  | some n =>
    have hok : childOK s q r :=
      hwf (q, n) (lookupN_mem hl) r (by simpa [childrenList, hl] using hrmem)
    rw [← hrid]
    exact hok.2.1

theorem childrenList_updateN_other {s : Store} {i j : Nat} (f : Node → Node)
    (h : j ≠ i) : childrenList (updateN s i f) j = childrenList s j := by
  unfold childrenList
  rw [lookupN_updateN_other _ h]

theorem parentOf_updateN_other {s : Store} {i j : Nat} (f : Node → Node)
    (h : j ≠ i) : parentOf (updateN s i f) j = parentOf s j := by
  unfold parentOf
  rw [lookupN_updateN_other _ h]

theorem childrenList_clear (s : Store) (i : Nat) :
    childrenList
      (updateN s i (fun n => { n with parent := none, children := none })) i
      = [] := by
  unfold childrenList
  rw [lookupN_updateN, if_pos rfl]
  cases lookupN s i with
  | none => rfl
  | some n => rfl

theorem allChildRefs_updateN {s : Store} (i : Nat) (f : Node → Node)
    (hf : ∀ n, List.Sublist ((f n).children.getD []) (n.children.getD [])) :
    List.Sublist (allChildRefs (updateN s i f)) (allChildRefs s) := by
  show List.Sublist
    ((s.entries.map (fun e => if e.1 = i then (e.1, f e.2) else e)).flatMap
      (fun e => e.2.children.getD []))
    (s.entries.flatMap (fun e => e.2.children.getD []))
  induction s.entries with
  | nil => exact List.Sublist.refl _
  | cons e es ih =>
    rw [List.map_cons, List.flatMap_cons, List.flatMap_cons]
    by_cases h : e.1 = i
    · rw [if_pos h]
      exact List.Sublist.append (hf e.2) ih
    · rw [if_neg h]
      exact List.Sublist.append (List.Sublist.refl _) ih

theorem rankBound_keys {s t : Store} {rk : Nat → Nat} {bound : Nat}
    (hk : t.entries.map Prod.fst = s.entries.map Prod.fst)
    (h : RankBound s rk bound) : RankBound t rk bound := by
  intro e he
  have hmem : e.1 ∈ s.entries.map Prod.fst := by
    rw [← hk]
    exact List.mem_map.mpr ⟨e, he, rfl⟩
  rcases List.mem_map.mp hmem with ⟨e0, he0, heq⟩
  rw [← heq]
  exact h e0 he0

theorem lookup_isSome_iff_mem :
    ∀ (l : List (Nat × Node)) (k : Nat),
      (List.lookup k l).isSome ↔ k ∈ l.map Prod.fst := by
  intro l
  induction l with
  | nil => intro k; simp [List.lookup]
  | cons e es ih =>
    intro k
    rcases e with ⟨k1, v1⟩
    rw [lookup_cons_pair]
    by_cases h : k = k1
    · subst h
      simp
    · rw [if_neg h]
      simp [h, ih k]

theorem isSome_keys {s t : Store}
    (hk : t.entries.map Prod.fst = s.entries.map Prod.fst) (j : Nat) :
    (lookupN t j).isSome ↔ (lookupN s j).isSome := by
  show (List.lookup j t.entries).isSome ↔ (List.lookup j s.entries).isSome
  rw [lookup_isSome_iff_mem, lookup_isSome_iff_mem, hk]

theorem wfOnce_of_sublist {s t : Store}
    (hsub : List.Sublist (allChildRefs t) (allChildRefs s)) (h : wfOnce s) :
    wfOnce t :=
  List.Nodup.sublist (List.Sublist.map InstRef.id hsub) h

theorem wfChildren_iff {s : Store} (hkeys : wfKeys s) :
    wfChildren s ↔ ∀ i, ∀ r ∈ childrenList s i, childOK s i r := by
  constructor
  · intro h i r hr
    cases hl : lookupN s i with
    | none => simp [childrenList, hl] at hr
    | some n =>
      exact h (i, n) (lookupN_mem hl) r (by simpa [childrenList, hl] using hr)
  · intro h e he r hr
    have hl : lookupN s e.1 = some e.2 := lookup_of_mem_nodup hkeys (by
      rcases e with ⟨i, n⟩
      exact he)
    exact h e.1 r (by simpa [childrenList, hl] using hr)

theorem destroyFuel_head_none (fuel : Nat) {s : Store} {N : Nat}
    (hlook : lookupN s N = none) : destroyFuel (fuel + 1) s N = s := by
  simp only [destroyFuel, hlook]

theorem destroyFuel_head (fuel : Nat) {s : Store} {N : Nat} {nN : Node}
    (hlook : lookupN s N = some nN) :
    destroyFuel (fuel + 1) s N =
      destroyClear
        (destroyDetach
          ((nN.children.getD []).foldl (fun acc c => destroyFuel fuel acc c.id) s)
          N) N := by
  simp only [destroyFuel, hlook]

theorem destroyDetach_none {s : Store} {N : Nat} (hp : parentOf s N = none) :
    destroyDetach s N = s := by
  unfold destroyDetach
  rw [hp]

theorem destroyDetach_some {s : Store} {N : Nat} {pr : InstRef}
    (hp : parentOf s N = some pr) :
    destroyDetach s N =
      if pr.asBase then removeChild s pr.id (baseRef N) else s := by
  unfold destroyDetach
  rw [hp]

/-- What the removal-from-parent phase does to the store, relative to a
pre-destroy store `s` whose children slices bound those of `v`. -/
theorem detach_facts {s v : Store} {N : Nat}
    (hwf : wfChildren s) (honce : wfOnce s)
    (hsub : ∀ p, List.Sublist (childrenList v p) (childrenList s p))
    (hpv : parentOf v N = parentOf s N) :
    (∀ p, List.Sublist (childrenList (destroyDetach v N) p) (childrenList v p)) ∧
    List.Sublist (allChildRefs (destroyDetach v N)) (allChildRefs v) ∧
    (destroyDetach v N).entries.map Prod.fst = v.entries.map Prod.fst ∧
    (∀ p, parentOf (destroyDetach v N) p = parentOf v p) ∧
    (∀ p, (∀ pr, parentOf s N = some pr → p ≠ pr.id) →
      childrenList (destroyDetach v N) p = childrenList v p) ∧
    (∀ q, cntId (childrenList (destroyDetach v N) q) N = 0) := by
  cases hparS : parentOf s N with
  | none =>
    have hw : destroyDetach v N = v := destroyDetach_none (by rw [hpv, hparS])
    rw [hw]
    refine ⟨fun p => List.Sublist.refl _, List.Sublist.refl _, rfl, fun p => rfl,
      fun p _ => rfl, ?_⟩
    intro q
    by_contra h0
    have h0s : cntId (childrenList s q) N ≠ 0 := by
      have := cntId_sublist_le (hsub q) N
      omega
    have hloc := occurs_located hwf h0s
    rw [hparS] at hloc
    exact Option.noConfusion hloc
  | some pr =>
    have hw : destroyDetach v N =
        if pr.asBase then removeChild v pr.id (baseRef N) else v :=
      destroyDetach_some (by rw [hpv, hparS])
    have hloc : ∀ q, cntId (childrenList s q) N ≠ 0 → pr = baseRef q := by
      intro q h0
      have hl := occurs_located hwf h0
      rw [hparS] at hl
      exact Option.some.inj hl
    by_cases hbase : pr.asBase = true
    · rw [hw, if_pos hbase]
      refine ⟨?_, ?_, ?_, ?_, ?_, ?_⟩
      · intro p
        by_cases hp : p = pr.id
        · subst hp
          rw [childrenList_removeChild_self]
          exact removeFirst_sublist _ _
        · rw [childrenList_removeChild_other (baseRef N) hp]
      · unfold removeChild
        apply allChildRefs_updateN
        intro n
        show List.Sublist
          ((n.children.map (fun l => removeFirst l (baseRef N))).getD [])
          (n.children.getD [])
        cases n.children with
        | none => exact List.Sublist.refl _
        | some l => exact removeFirst_sublist l _
      · unfold removeChild
        exact keys_updateN v pr.id _
      · intro p
        exact parentOf_removeChild v pr.id (baseRef N) p
      · intro p hp
        exact childrenList_removeChild_other (baseRef N) (hp pr rfl)
      · intro q
        by_cases hq : q = pr.id
        · subst hq
          rw [childrenList_removeChild_self]
          apply cnt_removeFirst_base
          · have h1 := cntId_sublist_le (hsub pr.id) N
            have h2 := cnt_le_one honce pr.id N
            omega
          · intro r hr hrid
            exact occurs_base hwf ((hsub pr.id).subset hr) hrid
        · rw [childrenList_removeChild_other (baseRef N) hq]
          by_contra h0
          have h0s : cntId (childrenList s q) N ≠ 0 := by
            have := cntId_sublist_le (hsub q) N
            omega
          have hpq := hloc q h0s
          exact hq (congrArg InstRef.id hpq).symm
    · rw [hw, if_neg hbase]
      refine ⟨fun p => List.Sublist.refl _, List.Sublist.refl _, rfl, fun p => rfl,
        fun p _ => rfl, ?_⟩
      intro q
      by_contra h0
      have h0s : cntId (childrenList s q) N ≠ 0 := by
        have := cntId_sublist_le (hsub q) N
        omega
      have hpq := hloc q h0s
      rw [hpq] at hbase
      exact hbase rfl

/-- Effect of the recursive-destroy fold over a tail `rem` of the
children of `N`: `IH` is the one-level-less induction hypothesis, `u`
the intermediate store reached after destroying the prefix `done`. -/
theorem destroyFold (rk : Nat → Nat) (bound fuel : Nat)
    (IH : ∀ (s : Store) (N : Nat),
      wfChildren s → wfOnce s → wfKeys s →
      (∀ i, ∀ rr ∈ childrenList s i, rk i < rk rr.id) →
      RankBound s rk bound →
      bound ≤ fuel + rk N →
      wfChildren (destroyFuel fuel s N) ∧
      (∀ p, List.Sublist (childrenList (destroyFuel fuel s N) p)
        (childrenList s p)) ∧
      List.Sublist (allChildRefs (destroyFuel fuel s N)) (allChildRefs s) ∧
      (destroyFuel fuel s N).entries.map Prod.fst = s.entries.map Prod.fst ∧
      (∀ p, ¬ Chain s N p → parentOf (destroyFuel fuel s N) p = parentOf s p) ∧
      (∀ p, ¬ Chain s N p → (∀ pr, parentOf s N = some pr → p ≠ pr.id) →
        childrenList (destroyFuel fuel s N) p = childrenList s p) ∧
      (∀ y, Chain s N y → ∀ q,
        cntId (childrenList (destroyFuel fuel s N) q) y = 0))
    (s : Store) (N : Nat)
    (hwf : wfChildren s) (honce : wfOnce s) (hkeys : wfKeys s)
    (hrkc : ∀ i, ∀ rr ∈ childrenList s i, rk i < rk rr.id)
    (hrb : RankBound s rk bound)
    (hfuel : bound ≤ fuel + 1 + rk N) :
    ∀ (rem done : List InstRef) (u : Store),
      childrenList s N = done ++ rem →
      wfChildren u →
      (∀ p, List.Sublist (childrenList u p) (childrenList s p)) →
      List.Sublist (allChildRefs u) (allChildRefs s) →
      u.entries.map Prod.fst = s.entries.map Prod.fst →
      (∀ p, (∀ c ∈ done, ¬ Chain s c.id p) → parentOf u p = parentOf s p) →
      (∀ p, (∀ c ∈ done, ¬ Chain s c.id p) → p ≠ N →
        childrenList u p = childrenList s p) →
      (∀ c ∈ done, ∀ y, Chain s c.id y → ∀ q,
        cntId (childrenList u q) y = 0) →
      wfChildren (rem.foldl (fun acc c => destroyFuel fuel acc c.id) u) ∧
      (∀ p, List.Sublist
        (childrenList (rem.foldl (fun acc c => destroyFuel fuel acc c.id) u) p)
        (childrenList s p)) ∧
      List.Sublist
        (allChildRefs (rem.foldl (fun acc c => destroyFuel fuel acc c.id) u))
        (allChildRefs s) ∧
      (rem.foldl (fun acc c => destroyFuel fuel acc c.id) u).entries.map
          Prod.fst = s.entries.map Prod.fst ∧
      (∀ p, (∀ c ∈ childrenList s N, ¬ Chain s c.id p) →
        parentOf (rem.foldl (fun acc c => destroyFuel fuel acc c.id) u) p
          = parentOf s p) ∧
      (∀ p, (∀ c ∈ childrenList s N, ¬ Chain s c.id p) → p ≠ N →
        childrenList (rem.foldl (fun acc c => destroyFuel fuel acc c.id) u) p
          = childrenList s p) ∧
      (∀ c ∈ childrenList s N, ∀ y, Chain s c.id y → ∀ q,
        cntId
          (childrenList (rem.foldl (fun acc c => destroyFuel fuel acc c.id) u) q)
          y = 0) := by
  intro rem
  induction rem with
  | nil =>
    intro done u hsplit h1 h2 h3 h4 h5 h6 h7
    have hd : done = childrenList s N := by
      rw [hsplit, List.append_nil]
    subst hd
    simp only [List.foldl_nil]
    exact ⟨h1, h2, h3, h4, h5, h6, h7⟩
  | cons c rem2 ihr =>
    intro done u hsplit h1 h2 h3 h4 h5 h6 h7
    have hcmemS : c ∈ childrenList s N := by
      rw [hsplit]
      exact List.mem_append.mpr (Or.inr (List.mem_cons_self c rem2))
    have hdone0 : cntId done c.id = 0 := by
      have hle := cnt_le_one honce N c.id
      rw [hsplit, cntId_append, cntId_cons, if_pos rfl] at hle
      omega
    have hdone_ne : ∀ r ∈ done, r.id ≠ c.id := cntId_eq_zero_iff.mp hdone0
    have hnotN : ∀ p, Chain s c.id p → p ≠ N := by
      intro p hp hpN
      subst hpN
      exact no_chain_back hrkc hcmemS hp
    have hnotprev : ∀ p, Chain s c.id p → ∀ c2 ∈ done, ¬ Chain s c2.id p := by
      intro p hp c2 hc2 hp2
      have hc2S : c2 ∈ childrenList s N := by
        rw [hsplit]
        exact List.mem_append.mpr (Or.inl hc2)
      exact sibling_cross hwf hrkc hcmemS hc2S (hdone_ne c2 hc2) hp hp2
    have hagree : ∀ p, Chain s c.id p → childrenList u p = childrenList s p :=
      fun p hp => h6 p (hnotprev p hp) (hnotN p hp)
    have hulift : ∀ y, Chain s c.id y → Chain u c.id y :=
      fun y hy => chain_lift hagree hy
    have hdown : ∀ a y, Chain u a y → Chain s a y :=
      fun a y h => chain_mono h2 h
    have huonce : wfOnce u := wfOnce_of_sublist h3 honce
    have hukeys : wfKeys u := by
      unfold wfKeys
      rw [h4]
      exact hkeys
    have hurkc : ∀ i, ∀ rr ∈ childrenList u i, rk i < rk rr.id :=
      fun i rr hrr => hrkc i rr ((h2 i).subset hrr)
    have hurb : RankBound u rk bound := rankBound_keys h4 hrb
    have hcfuel : bound ≤ fuel + rk c.id := by
      have hedge : rk N < rk c.id := hrkc N c hcmemS
      omega
    obtain ⟨J1, J2, J3, J4, J5, J6, J7⟩ :=
      IH u c.id h1 huonce hukeys hurkc hurb hcfuel
    have hpcS : parentOf s c.id = some (baseRef N) :=
      occurs_located hwf (cnt_ne_zero_of_mem hcmemS rfl)
    have hpcU : parentOf u c.id = some (baseRef N) := by
      rw [h5 c.id (fun c2 hc2 => hnotprev c.id (Chain.refl c.id) c2 hc2)]
      exact hpcS
    simp only [List.foldl_cons]
    apply ihr (done ++ [c]) (destroyFuel fuel u c.id)
    · rw [hsplit]
      simp
    · exact J1
    · exact fun p => (J2 p).trans (h2 p)
    · exact J3.trans h3
    · rw [J4, h4]
    · intro p hp
      have hnc : ¬ Chain u c.id p := fun hch => hp c (by simp) (hdown _ _ hch)
      rw [J5 p hnc]
      exact h5 p (fun c2 hc2 => hp c2 (List.mem_append.mpr (Or.inl hc2)))
    · intro p hp hpN
      have hnc : ¬ Chain u c.id p := fun hch => hp c (by simp) (hdown _ _ hch)
      have hppr : ∀ pr, parentOf u c.id = some pr → p ≠ pr.id := by
        intro pr hpr
        rw [hpcU] at hpr
        rw [← Option.some.inj hpr]
        exact hpN
      rw [J6 p hnc hppr]
      exact h6 p (fun c2 hc2 => hp c2 (List.mem_append.mpr (Or.inl hc2))) hpN
    · intro c2 hc2 y hy q
      rcases List.mem_append.mp hc2 with h | h
      · have h0 := h7 c2 h y hy q
        have hle := cntId_sublist_le (J2 q) y
        omega
      · have hceq : c2 = c := by simpa using h
        subst hceq
        exact J7 y (hulift y hy) q

/-- What the clearing phase does to the store. -/
theorem clear_facts (w : Store) (N : Nat) :
    (∀ p, List.Sublist (childrenList (destroyClear w N) p) (childrenList w p)) ∧
    List.Sublist (allChildRefs (destroyClear w N)) (allChildRefs w) ∧
    (destroyClear w N).entries.map Prod.fst = w.entries.map Prod.fst ∧
    (∀ p, p ≠ N → parentOf (destroyClear w N) p = parentOf w p) ∧
    (∀ p, p ≠ N → childrenList (destroyClear w N) p = childrenList w p) := by
  refine ⟨?_, ?_, ?_, ?_, ?_⟩
  · intro p
    by_cases hp : p = N
    · subst hp
      unfold destroyClear
      rw [childrenList_clear]
      exact List.nil_sublist _
    · unfold destroyClear
      rw [childrenList_updateN_other _ hp]
  · unfold destroyClear
    apply allChildRefs_updateN
    intro n
    exact List.nil_sublist _
  · unfold destroyClear
    exact keys_updateN w N _
  · intro p hp
    unfold destroyClear
    exact parentOf_updateN_other _ hp
  · intro p hp
    unfold destroyClear
    exact childrenList_updateN_other _ hp

/-- Master induction for `Destroy`: under the tree invariants and an
acyclicity rank bounded by the fuel, destroying `N` (a) preserves the
children-coherence invariant, (b) only ever shrinks children slices,
(c) shrinks the combined slice list, (d) keeps the key set, (e) leaves
parents outside the subtree of `N` alone, (f) leaves children slices
outside the subtree and the parent of `N` alone, and (g) eliminates
every id of the subtree of `N` from every children slice. -/
theorem destroyAux (rk : Nat → Nat) (bound : Nat) :
    ∀ (fuel : Nat) (s : Store) (N : Nat),
      wfChildren s → wfOnce s → wfKeys s →
      (∀ i, ∀ rr ∈ childrenList s i, rk i < rk rr.id) →
      RankBound s rk bound →
      bound ≤ fuel + rk N →
      wfChildren (destroyFuel fuel s N) ∧
      (∀ p, List.Sublist (childrenList (destroyFuel fuel s N) p)
        (childrenList s p)) ∧
      List.Sublist (allChildRefs (destroyFuel fuel s N)) (allChildRefs s) ∧
      (destroyFuel fuel s N).entries.map Prod.fst = s.entries.map Prod.fst ∧
      (∀ p, ¬ Chain s N p → parentOf (destroyFuel fuel s N) p = parentOf s p) ∧
      (∀ p, ¬ Chain s N p → (∀ pr, parentOf s N = some pr → p ≠ pr.id) →
        childrenList (destroyFuel fuel s N) p = childrenList s p) ∧
      (∀ y, Chain s N y → ∀ q,
        cntId (childrenList (destroyFuel fuel s N) q) y = 0) := by
  intro fuel
  induction fuel with
  | zero =>
    intro s N hwf honce hkeys hrkc hrb hfuel
    have hnone : lookupN s N = none := by
      cases hl : lookupN s N with
      | none => rfl
      | some n =>
        have hlt : rk N < bound := hrb (N, n) (lookupN_mem hl)
        omega
    rw [show destroyFuel 0 s N = s from rfl]
    refine ⟨hwf, fun p => List.Sublist.refl _, List.Sublist.refl _, rfl,
      fun p _ => rfl, fun p _ _ => rfl, ?_⟩
    intro y hy q
    have hyN : y = N := by
      rcases chain_inv_first hy with h | ⟨c, hc, _⟩
      · exact h.symm
      · rw [show childrenList s N = [] from by
          unfold childrenList
          rw [hnone]] at hc
        cases hc
    subst hyN
    by_contra h0
    have h1 := occurs_some hwf h0
    rw [hnone] at h1
    simp at h1
  | succ fuel ih =>
    intro s N hwf honce hkeys hrkc hrb hfuel
    cases hlook : lookupN s N with
    | none =>
      rw [destroyFuel_head_none fuel hlook]
      refine ⟨hwf, fun p => List.Sublist.refl _, List.Sublist.refl _, rfl,
        fun p _ => rfl, fun p _ _ => rfl, ?_⟩
      intro y hy q
      have hyN : y = N := by
        rcases chain_inv_first hy with h | ⟨c, hc, _⟩
        · exact h.symm
        · rw [show childrenList s N = [] from by
            unfold childrenList
            rw [hlook]] at hc
          cases hc
      subst hyN
      by_contra h0
      have h1 := occurs_some hwf h0
      rw [hlook] at h1
      simp at h1
    | some nN =>
      have hkids : childrenList s N = nN.children.getD [] := by
        unfold childrenList
        rw [hlook]
      have hhead : destroyFuel (fuel + 1) s N =
          destroyClear
            (destroyDetach
              ((childrenList s N).foldl (fun acc c => destroyFuel fuel acc c.id) s)
              N) N := by
        rw [destroyFuel_head fuel hlook, hkids]
      obtain ⟨F1, F2, F3, F4, F5, F6, F7⟩ :=
        destroyFold rk bound fuel ih s N hwf honce hkeys hrkc hrb hfuel
          (childrenList s N) [] s (by simp) hwf (fun p => List.Sublist.refl _)
          (List.Sublist.refl _) rfl (fun p _ => rfl) (fun p _ _ => rfl)
          (fun c hc => absurd hc (by simp))
      have hpN : parentOf
          ((childrenList s N).foldl (fun acc c => destroyFuel fuel acc c.id) s) N
          = parentOf s N :=
        F5 N (fun c hc hch => no_chain_back hrkc hc hch)
      obtain ⟨D1, D2, D3, D4, D5, D6⟩ := detach_facts hwf honce F2 hpN
      obtain ⟨C1, C2, C3, C4, C5⟩ :=
        clear_facts
          (destroyDetach
            ((childrenList s N).foldl (fun acc c => destroyFuel fuel acc c.id) s)
            N) N
      have hG2 : ∀ p, List.Sublist (childrenList (destroyFuel (fuel + 1) s N) p)
          (childrenList s p) := by
        rw [hhead]
        exact fun p => ((C1 p).trans (D1 p)).trans (F2 p)
      have hG3 : List.Sublist (allChildRefs (destroyFuel (fuel + 1) s N))
          (allChildRefs s) := by
        rw [hhead]
        exact C2.trans (D2.trans F3)
      have hG4 : (destroyFuel (fuel + 1) s N).entries.map Prod.fst
          = s.entries.map Prod.fst := by
        rw [hhead, C3, D3, F4]
      have hnN : ∀ p, ¬ Chain s N p → p ≠ N := fun p hp he => hp (by
        rw [he]
        exact Chain.refl N)
      have hGch : ∀ (p : Nat), ¬ Chain s N p →
          ∀ c ∈ childrenList s N, ¬ Chain s c.id p :=
        fun p hp c hc hch => hp (chain_trans hch (Chain.step (Chain.refl N) hc))
      have hG5 : ∀ p, ¬ Chain s N p →
          parentOf (destroyFuel (fuel + 1) s N) p = parentOf s p := by
        intro p hp
        rw [hhead, C4 p (hnN p hp), D4 p]
        exact F5 p (hGch p hp)
      have hG6 : ∀ p, ¬ Chain s N p →
          (∀ pr, parentOf s N = some pr → p ≠ pr.id) →
          childrenList (destroyFuel (fuel + 1) s N) p = childrenList s p := by
        intro p hp hpr
        rw [hhead, C5 p (hnN p hp), D5 p hpr]
        exact F6 p (hGch p hp) (hnN p hp)
      have hG7 : ∀ y, Chain s N y → ∀ q,
          cntId (childrenList (destroyFuel (fuel + 1) s N) q) y = 0 := by
        rw [hhead]
        intro y hy q
        rcases chain_inv_first hy with heq | ⟨c, hc, hch⟩
        · subst heq
          have h0 := D6 q
          have h1 := cntId_sublist_le (C1 q) N
          omega
        · have h0 := F7 c hc y hch q
          have h1 := cntId_sublist_le (D1 q) y
          have h2 := cntId_sublist_le (C1 q) y
          omega
      have htkeys : wfKeys (destroyFuel (fuel + 1) s N) := by
        unfold wfKeys
        rw [hG4]
        exact hkeys
      have hG1 : wfChildren (destroyFuel (fuel + 1) s N) := by
        apply (wfChildren_iff htkeys).mpr
        intro q r hr
        have hrS : r ∈ childrenList s q := (hG2 q).subset hr
        have hokS : childOK s q r := (wfChildren_iff hkeys).mp hwf q r hrS
        have hnch : ¬ Chain s N r.id := by
          intro hch
          exact cnt_ne_zero_of_mem hr rfl (hG7 r.id hch q)
        refine ⟨hokS.1, ?_, ?_⟩
        · exact (isSome_keys hG4 r.id).mpr hokS.2.1
        · rw [hG5 r.id hnch]
          exact hokS.2.2
      exact ⟨hG1, hG2, hG3, hG4, hG5, hG6, hG7⟩

/-- C6: for every node `N` of a well-formed acyclic tree (acyclicity
witnessed by a rank function `rk` bounded by `bound`, with enough fuel
for the recursion), after `N.Destroy()` a `GetDescendants()` walk from
any node `A` whatsoever — in particular from any still-reachable
ancestor of `N` — no longer lists `N` or any node that was a descendant
of `N` before the call, at any traversal depth. -/
theorem C6_destroy_descendants (s : Store) (N : Nat) (rk : Nat → Nat)
    (bound fuel1 : Nat)
    (hwf : WF s) (hrk : RK s rk) (hbound : RankBound s rk bound)
    (hfuel : bound ≤ fuel1 + rk N) :
    ∀ y fuel2, (y = N ∨ y ∈ descIds fuel2 s N) →
      ∀ A fuel3, y ∉ descIds fuel3 (destroyFuel fuel1 s N) A := by
  obtain ⟨hwfc, honce, hkeys⟩ := hwf
  have hrkc : ∀ i, ∀ rr ∈ childrenList s i, rk i < rk rr.id :=
    (RK_iff hkeys).mp hrk
  obtain ⟨_, _, _, _, _, _, G7⟩ :=
    destroyAux rk bound fuel1 s N hwfc honce hkeys hrkc hbound hfuel
  intro y fuel2 hy A fuel3 hmem
  have hchain : Chain s N y := by
    rcases hy with h | h
    · rw [h]
      exact Chain.refl N
    · exact desc_mem_chain fuel2 s N y h
  rcases desc_occurs fuel3 (destroyFuel fuel1 s N) A y hmem with ⟨q, hq⟩
  exact hq (G7 y hchain q)

/-- Witness for C6 on the concrete store `storeAND`: destroying `N`
(id 1, child of `A` = 0, with child `D` = 2) removes both 1 and its
former descendant 2 from the descendants of the ancestor 0. -/
theorem C6_destroy_descendants_witness :
    (WF storeAND ∧ RK storeAND (fun i => i) ∧
      RankBound storeAND (fun i => i) 4 ∧ 4 ≤ 4 + (fun i : Nat => i) 1 ∧
      (2 = 1 ∨ 2 ∈ descIds 4 storeAND 1)) ∧
    2 ∉ descIds 4 (destroyFuel 4 storeAND 1) 0 :=
  ⟨⟨by decide, by decide, by decide, by decide, by decide⟩,
   C6_destroy_descendants storeAND 1 (fun i => i) 4 4 (by decide) (by decide)
     (by decide) (by decide) 2 4 (by decide) 0 4⟩

end BO3
